import Mathlib

/-!
# images_resizer: a verification development

A shallow embedding of `images_resizer.go` (the 2x2 box sampler `average2x2`,
the coordinate `clamp`, the forward-mapping `resizeImage`, the file-name
handling of `workersPoolResizeImages`, its channel-based worker pool, and the
argument check of `main`) together with theorems about them.

Conventions.
* Go `int` values are modelled by `Int`; no operation of the program on the
  inputs considered here leaves the 64-bit range.
* Go `float64` values are modelled exactly: a finite value is a sign, a natural
  significand `m` and an integer exponent `e`, standing for `± m * 2 ^ e`, and
  every arithmetic operation rounds to nearest, ties to even, as IEEE-754
  prescribes for binary64.
* Go strings are byte sequences.
-/

set_option autoImplicit false

/-! ## Binary floating point -/

/-- Number of binary digits of `n` for `n < 2 ^ fuel` (`0` for `n = 0`). -/
def bitLenAux : Nat → Nat → Nat
  | 0, _ => 0
  | fuel + 1, n => if n = 0 then 0 else bitLenAux fuel (n / 2) + 1

/-- Number of binary digits of `n`: the least `k` with `n < 2 ^ k`. -/
def bitLen (n : Nat) : Nat := bitLenAux n n

/-- The integer nearest to `M / 2 ^ s`, a tie going to the even neighbour. -/
def roundShift (M s : Nat) : Nat :=
  let q := M / 2 ^ s
  let r := M % 2 ^ s
  if 2 * r < 2 ^ s then q
  else if 2 ^ s < 2 * r then q + 1
  else if q % 2 = 0 then q else q + 1

/-- A Go `float64`: not-a-number, an infinity, or the finite value
`(-1) ^ neg * m * 2 ^ e`. -/
inductive F64 where
  | nan : F64
  | inf (neg : Bool) : F64
  | fin (neg : Bool) (m : Nat) (e : Int) : F64
deriving DecidableEq

namespace F64

/-- The finite value is one a binary64 can hold: a significand of at most 53
bits and an exponent between the subnormal exponent and the largest one. -/
def IsBinary64 : F64 → Prop
  | fin _ m e => m < 2 ^ 53 ∧ -1074 ≤ e ∧ e ≤ 971
  | _ => True

instance (x : F64) : Decidable x.IsBinary64 := by
  cases x <;> unfold IsBinary64 <;> infer_instance

/-- Number of low bits the exact value `M * 2 ^ E` loses when it is rounded
to binary64: what exceeds 53 significant bits, or what lies below the
subnormal exponent `-1074`. -/
def dropBits (M : Nat) (E : Int) : Nat :=
  max (bitLen M - 53) (Int.toNat (-1074 - E))

/-- The binary64 nearest to the exact value `(-1) ^ neg * M * 2 ^ E` (ties to even);
an infinity when the rounded value does not fit, that is when it reaches
`2 ^ 1024` (its significand `m` is not zero and has `bitLen m` bits, so this is
`1024 < bitLen m + e`). -/
def round (neg : Bool) (M : Nat) (E : Int) : F64 :=
  let s := dropBits M E
  let m := roundShift M s
  let e := E + (s : Int)
  if m ≠ 0 ∧ 1024 < (bitLen m : Int) + e then inf neg else fin neg m e

/-- Go `float64(n)` for an `int` value `n`. -/
def ofInt (n : Int) : F64 := round (decide (n < 0)) n.natAbs 0

/-- Go `x * y` on `float64`. -/
def mul : F64 → F64 → F64
  | fin n1 m1 e1, fin n2 m2 e2 => round (xor n1 n2) (m1 * m2) (e1 + e2)
  | fin n1 m1 _, inf n2 => if m1 = 0 then nan else inf (xor n1 n2)
  | inf n1, fin n2 m2 _ => if m2 = 0 then nan else inf (xor n1 n2)
  | inf n1, inf n2 => inf (xor n1 n2)
  | nan, _ => nan
  | _, nan => nan

/-- Integer part of the magnitude of a finite value `m * 2 ^ e`. -/
def truncMag (m : Nat) (e : Int) : Nat :=
  if 0 ≤ e then m * 2 ^ e.toNat else m / 2 ^ (-e).toNat

/-- Go `int(x)` for a `float64` value `x`: truncation toward zero. For a value
outside the `int` range (or not-a-number) Go leaves the result to the
implementation; the value taken here, `-2 ^ 63`, is the one the gc compiler
produces on amd64. -/
def toInt : F64 → Int
  | fin neg m e =>
      let v : Int := if neg then -(truncMag m e : Int) else (truncMag m e : Int)
      if -2 ^ 63 ≤ v ∧ v < 2 ^ 63 then v else -2 ^ 63
  | _ => -2 ^ 63

/-- The finite value `(-1) ^ neg * m * 2 ^ e` as an integer multiple of `2 ^ k`,
for `k ≤ e`. -/
def scaled (neg : Bool) (m : Nat) (e k : Int) : Int :=
  let v : Int := (m : Int) * 2 ^ (e - k).toNat
  if neg then -v else v

/-- Go `x <= y` on `float64` (false as soon as an operand is not-a-number). -/
def le : F64 → F64 → Bool
  | nan, _ => false
  | _, nan => false
  | inf n1, inf n2 => n1 || !n2
  | inf n1, fin _ _ _ => n1
  | fin _ _ _, inf n2 => !n2
  | fin n1 m1 e1, fin n2 m2 e2 =>
      decide (scaled n1 m1 e1 (min e1 e2) ≤ scaled n2 m2 e2 (min e1 e2))

/-- Go `x < y` on `float64` (false as soon as an operand is not-a-number). -/
def lt : F64 → F64 → Bool
  | nan, _ => false
  | _, nan => false
  | inf n1, inf n2 => n1 && !n2
  | inf n1, fin _ _ _ => n1
  | fin _ _ _, inf n2 => !n2
  | fin n1 m1 e1, fin n2 m2 e2 =>
      decide (scaled n1 m1 e1 (min e1 e2) < scaled n2 m2 e2 (min e1 e2))

/-- Go `x >= y` on `float64`. -/
def ge (x y : F64) : Bool := le y x

/-- The constant `0.0`. -/
def zero : F64 := fin false 0 0

/-- The constant `1.0`. -/
def one : F64 := fin false 1 0

/-- The exact rational value of a finite `float64` (`0` for the others). -/
def toRat : F64 → ℚ
  | fin neg m e => (if neg then -1 else 1) * (m : ℚ) * (2 : ℚ) ^ e
  | _ => 0

end F64

/-! ## Colours and the 2x2 sampler -/

/-- A `color.Color` as the program sees it: the four `uint32` values its
`RGBA()` method returns. -/
structure Color where
  r : Nat
  g : Nat
  b : Nat
  a : Nat
deriving DecidableEq

/-- A `color.RGBA`: four `uint8` channels. -/
structure RGBA where
  R : Nat
  G : Nat
  B : Nat
  A : Nat
deriving DecidableEq

/-- Go `float32(n)` for a `uint32` value `n`: the nearest value with a 24-bit
significand, ties to even. The result is an integer. -/
def float32OfUint32 (n : Nat) : Nat :=
  let s := bitLen n - 24
  roundShift n s * 2 ^ s

/-- Go `uint8(x / 1024.0)` for a `float32` `x` of integer value `v`. Dividing
by the power of two `1024` is exact in binary floating point, and the
conversion truncates. For a quotient of `256` or more Go leaves the result to
the implementation; the low eight bits taken here are what the gc compiler
produces on amd64. -/
def uint8OfDiv1024 (v : Nat) : Nat := (v / 1024) % 256

/-- One channel of `average2x2`:
`uint8(float32(c00 + c01 + c10 + c11) / 1024.0)`, the sum taken in `uint32`. -/
def averageChannel (c00 c01 c10 c11 : Nat) : Nat :=
  uint8OfDiv1024 (float32OfUint32 ((c00 + c01 + c10 + c11) % 2 ^ 32))

/-- Average RGBA color from 2x2 rect. -/
def average2x2 (c00 c01 c10 c11 : Color) : RGBA :=
  { R := averageChannel c00.r c01.r c10.r c11.r
    G := averageChannel c00.g c01.g c10.g c11.g
    B := averageChannel c00.b c01.b c10.b c11.b
    A := averageChannel c00.a c01.a c10.a c11.a }

/-! ## Clamping -/

/-- Clamp x and y to [0..w-1] and [0..h-1] respectively. -/
def clamp (x y w h : Int) : Int × Int :=
  let x := if x < 0 then 0 else if x > w - 1 then w - 1 else x
  let y := if y < 0 then 0 else if y > h - 1 then h - 1 else y
  (x, y)

/-! ## Images and the resizer -/

/-- A source `image.Image`: the origin of its bounds (`img.Bounds().Min`), the
width and height of its bounds (`img.Bounds().Dx()`, `img.Bounds().Dy()`) and its
pixel accessor `img.At(x, y)`, which takes absolute coordinates. The pixels of
the image are the positions `(x, y)` with `minX ≤ x < minX + Dx` and
`minY ≤ y < minY + Dy`. `resizeImage` reads `Dx`, `Dy` and `At` only: it never
consults the origin. -/
structure Image where
  minX : Int
  minY : Int
  Dx : Nat
  Dy : Nat
  At : Int → Int → Color

/-- An `image.Rectangle`: the points `(x, y)` with `minX ≤ x < maxX` and
`minY ≤ y < maxY`. -/
structure Rectangle where
  minX : Int
  minY : Int
  maxX : Int
  maxY : Int
deriving DecidableEq

/-- Go `image.Rect(x0, y0, x1, y1)`: the rectangle with the given corners, the
coordinates swapped where needed so that it is well formed. -/
def Rect (x0 y0 x1 y1 : Int) : Rectangle :=
  { minX := if x0 > x1 then x1 else x0
    minY := if y0 > y1 then y1 else y0
    maxX := if x0 > x1 then x0 else x1
    maxY := if y0 > y1 then y0 else y1 }

/-- Go `Point{x, y}.In(r)`. -/
def Rectangle.Contains (r : Rectangle) (x y : Int) : Prop :=
  r.minX ≤ x ∧ x < r.maxX ∧ r.minY ≤ y ∧ y < r.maxY

instance (r : Rectangle) (x y : Int) : Decidable (r.Contains x y) := by
  unfold Rectangle.Contains
  infer_instance

/-- An `*image.RGBA`: its bounds and its pixel store. -/
structure RGBAImage where
  rect : Rectangle
  pix : Int → Int → RGBA

/-- Go `image.NewRGBA(r)`: every pixel starts as the zero colour. Allocation is
taken to succeed. -/
def NewRGBA (r : Rectangle) : RGBAImage :=
  { rect := r, pix := fun _ _ => ⟨0, 0, 0, 0⟩ }

/-- Go `(*image.RGBA).Set(x, y, c)` for a `color.RGBA` `c`: a write outside the
bounds is dropped. -/
def RGBAImage.Set (p : RGBAImage) (x y : Int) (c : RGBA) : RGBAImage :=
  if p.rect.Contains x y then
    { p with pix := fun u v => if u = x ∧ v = y then c else p.pix u v }
  else p

/-- Go `(*image.RGBA).RGBAAt(x, y)`: the zero colour outside the bounds. -/
def RGBAImage.RGBAAt (p : RGBAImage) (x y : Int) : RGBA :=
  if p.rect.Contains x y then p.pix x y else ⟨0, 0, 0, 0⟩

/-- Go `int(float64(n) * factor)`: the expression `resizeImage` uses for the
output size and for the output position of a source index. -/
def scaleIndex (n : Int) (factor : F64) : Int :=
  F64.toInt (F64.mul (F64.ofInt n) factor)

/-- Colour `resizeImage` computes for the source position `(j, i)`: the 2x2
average of the pixels at the four clamped neighbour coordinates. -/
def sampleAt (img : Image) (j i : Int) : RGBA :=
  let w : Int := img.Dx
  let h : Int := img.Dy
  average2x2
    (img.At (clamp j i w h).1 (clamp j i w h).2)
    (img.At (clamp (j + 1) i w h).1 (clamp (j + 1) i w h).2)
    (img.At (clamp j (i + 1) w h).1 (clamp j (i + 1) w h).2)
    (img.At (clamp (j + 1) (i + 1) w h).1 (clamp (j + 1) (i + 1) w h).2)

/-- Body of the inner loop of `resizeImage` for the source position `(j, i)`. -/
def resizeStep (img : Image) (factor : F64) (i j : Nat) (out : RGBAImage) : RGBAImage :=
  out.Set (scaleIndex j factor) (scaleIndex i factor) (sampleAt img j i)

/-- Inner loop of `resizeImage`: `for j := 0; j < w; j++`. -/
def resizeRow (img : Image) (factor : F64) (i : Nat) (out : RGBAImage) : RGBAImage :=
  (List.range img.Dx).foldl (fun o j => resizeStep img factor i j o) out

/-- Resize image. -/
def resizeImage (img : Image) (factor : F64) : RGBAImage :=
  let out := NewRGBA (Rect 0 0 (scaleIndex img.Dx factor) (scaleIndex img.Dy factor))
  (List.range img.Dy).foldl (fun o i => resizeRow img factor i o) out

/-- The exact product `W * f` of the spec, rounded down: `floor (W * f)` in
rational arithmetic. -/
def exactFloor (W : Nat) (f : F64) : Int := ⌊(W : ℚ) * f.toRat⌋

/-- Rounding to binary64 on a fixed scale: for an exact value `M * 2 ^ (-K)`,
of which `smin` low bits lie below the subnormal exponent, the rounded value in
units of `2 ^ (-K)`. -/
def rnd (smin M : Nat) : Nat :=
  roundShift M (max (bitLen M - 53) smin) * 2 ^ (max (bitLen M - 53) smin)

/-- Value of `int(float64(j) * f)` for the factor `f = mf * 2 ^ (-K)`, in
integer arithmetic (see `scaleIndex_eq`). -/
def xmap (mf K j : Nat) : Nat := rnd (K - 1074) (j * mf) / 2 ^ K

/-! ## Predicates used in the statements -/

/-- The four channel values of a colour lie in `[0, 65535]`, as the contract of
`color.Color.RGBA` promises. -/
def Color.InRange (c : Color) : Prop :=
  c.r ≤ 65535 ∧ c.g ≤ 65535 ∧ c.b ≤ 65535 ∧ c.a ≤ 65535

instance (c : Color) : Decidable c.InRange := by
  unfold Color.InRange
  infer_instance

/-- What the spec says of one output channel `v` of the sampler for the four
input values `a b c d`: it is `floor ((a + b + c + d) / 1024)`, the float
quotient converted to `uint8` is at most `255` (so the conversion does not
wrap), and it is the truncated mean `floor (sum / 4)` shifted right by 8 bits. -/
def TruncatedMean (v a b c d : Nat) : Prop :=
  v = (a + b + c + d) / 1024 ∧
  float32OfUint32 ((a + b + c + d) % 2 ^ 32) / 1024 ≤ 255 ∧
  v ≤ 255 ∧
  v = ((a + b + c + d) / 4) >>> 8

/-- The factor lies strictly between `0.0` and `1.0` (Go comparisons). -/
def F64.InUnitInterval (f : F64) : Prop :=
  F64.lt F64.zero f = true ∧ F64.lt f F64.one = true

instance (f : F64) : Decidable f.InUnitInterval := by
  unfold F64.InUnitInterval
  infer_instance

/-- The `float64` nearest to the decimal `0.7`: `6305039478318694 * 2 ^ (-53)`,
slightly below `0.7`. -/
def factor07 : F64 := F64.fin false 6305039478318694 (-53)

/-- The `float64` nearest to the decimal `0.29`: `5224175567749775 * 2 ^ (-54)`,
slightly below `0.29`. -/
def factor029 : F64 := F64.fin false 5224175567749775 (-54)

/-- The `float64` `0.5`. -/
def factorHalf : F64 := F64.fin false 1 (-1)

/-- An image of the given size, its bounds starting at `(0, 0)`, whose every
pixel has the colour `c`. -/
def solidImage (w h : Nat) (c : Color) : Image :=
  { minX := 0, minY := 0, Dx := w, Dy := h, At := fun _ _ => c }

/-- Every pixel of the image has the colour `c`. -/
def Image.Solid (img : Image) (c : Color) : Prop :=
  ∀ x y : Int, img.minX ≤ x → x < img.minX + img.Dx → img.minY ≤ y → y < img.minY + img.Dy →
    img.At x y = c

/-- A solid red opaque `*image.RGBA` of size 2 by 2 whose bounds are
`(2, 2)-(4, 4)`, as a sub-image or an offset GIF frame has them; `At` returns the
zero colour outside the bounds. -/
def offsetRedImage : Image :=
  { minX := 2, minY := 2, Dx := 2, Dy := 2,
    At := fun x y =>
      if 2 ≤ x ∧ x < 4 ∧ 2 ≤ y ∧ y < 4 then ⟨65535, 0, 0, 65535⟩ else ⟨0, 0, 0, 0⟩ }

/-- The `float64` `1 - 5 * 2 ^ (-29)`, that is `9007199170854912 * 2 ^ (-53)`
(about `0.9999999907`). -/
def factorNearOne : F64 := F64.fin false 9007199170854912 (-53)

/-- A solid opaque white image of width `2 ^ 29 + 7 = 536870919` and height `2`. -/
def wideImage : Image := solidImage 536870919 2 ⟨65535, 65535, 65535, 65535⟩

/-- A solid red opaque image of size 4 by 4. -/
def redImage : Image := solidImage 4 4 ⟨65535, 0, 0, 65535⟩

/-- An opaque image of size 4 by 4 whose red channel grows with the column and
whose green channel grows with the row. -/
def gradientImage : Image :=
  { minX := 0, minY := 0, Dx := 4, Dy := 4,
    At := fun x y => ⟨257 * x.toNat, 257 * y.toNat, 0, 65535⟩ }

/-! ## File names: the task enumerator and the output name -/

/-- A Go string: a sequence of bytes. -/
abbrev GoString := List UInt8

/-- The bytes of an ASCII string literal. -/
def ascii (s : String) : GoString := s.toList.map (fun c => c.toNat.toUInt8)

/-- The marker `"_resized"`. -/
def resizedMarker : GoString := ascii "_resized"

/-- The keys of the map `possibleExts`. -/
def possibleExts : List GoString := [ascii ".jpg", ascii ".jpeg", ascii ".png", ascii ".gif"]

/-- Loop of Go `filepath.Ext`: scan the path from its last byte towards the
first, stop at a path separator `'/'` (byte 47), return the suffix that starts
at the first dot (byte 46) met. `suf` holds the bytes already scanned. -/
def extScan : GoString → GoString → GoString
  | [], _ => []
  | c :: rest, suf =>
      if c = 47 then [] else if c = 46 then c :: suf else extScan rest (c :: suf)

/-- Go `filepath.Ext(path)`: the suffix beginning at the final dot in the final
element of `path`; empty if there is no dot. -/
def filepathExt (path : GoString) : GoString := extScan path.reverse []

/-- Go `strings.ToLower` on a string of ASCII bytes: `'A'..'Z'` become
`'a'..'z'`. (On other strings the standard library maps every rune with the
Unicode tables; the theorems below take that function as a parameter.) -/
def toLowerASCII (s : GoString) : GoString :=
  s.map (fun b => if 65 ≤ b ∧ b ≤ 90 then b + 32 else b)

/-- The two lines every loop of the program starts with:
`ext := strings.ToLower(filepath.Ext(filename))` and
`name := filename[0 : len(filename)-len(ext)]`. The slice expression panics
when `len(ext)` exceeds `len(filename)`: the result is then `none`. -/
def splitName (toLower : GoString → GoString) (filename : GoString) :
    Option (GoString × GoString) :=
  let ext := toLower (filepathExt filename)
  if ext.length ≤ filename.length then
    some (filename.take (filename.length - ext.length), ext)
  else none

/-- The test of the task enumerator of `workersPoolResizeImages`:
`!strings.Contains(name, "_resized") && possibleExts[ext]`. -/
def eligible (toLower : GoString → GoString) (filename : GoString) : Option Bool :=
  (splitName toLower filename).map
    (fun ne => decide (¬ resizedMarker <:+: ne.1) && decide (ne.2 ∈ possibleExts))

/-- The task enumerator of `workersPoolResizeImages`: the eligible file names
of a directory listing, in listing order (`none` when the slice panics). -/
def imageFiles (toLower : GoString → GoString) : List GoString → Option (List GoString)
  | [] => some []
  | f :: fs =>
      match eligible toLower f with
      | none => none
      | some e => (imageFiles toLower fs).map (fun rest => if e then f :: rest else rest)

/-- The file name a worker creates for `filename`: `name+"_resized"+ext`. -/
def outputName (toLower : GoString → GoString) (filename : GoString) : Option GoString :=
  (splitName toLower filename).map (fun ne => ne.1 ++ resizedMarker ++ ne.2)

/-! ## The entry point -/

/-- State in which `flag.Parse()` leaves the two flags of the program. The
flag package belongs to the standard library: with a malformed command line, or
with `-h`/`-help`, `flag.Parse` calls `flag.Usage` (which the program has set to
print the usage text and call `os.Exit(0)`) and never returns; `parsed` tells
whether it returned. -/
structure Flags where
  dirWithImages : GoString
  scalingFactor : F64
  parsed : Bool

/-- What `main` does: print the usage text and exit without calling
`workersPoolResizeImages`, or call `workersPoolResizeImages(dir, factor)`. -/
inductive Outcome where
  | usageExit : Outcome
  | processed (dir : GoString) (factor : F64) : Outcome
deriving DecidableEq

/-- The function `main` of the program: `osArgs` is `os.Args` (the program name first), `flags`
the outcome of `flag.Parse()` on it. `flag.Usage()` ends the process, so
everything after the guard runs only when the guard is false. -/
def ImagesResizer.main (osArgs : List GoString) (flags : Flags) : Outcome :=
  if !flags.parsed then Outcome.usageExit
  else if decide (osArgs.length < 3) ||
      (F64.le flags.scalingFactor F64.zero || F64.ge flags.scalingFactor F64.one) then
    Outcome.usageExit
  else Outcome.processed flags.dirWithImages flags.scalingFactor

/-! ## The worker pool of `workersPoolResizeImages`

The goroutines communicate only through the two buffered channels, and a
channel operation is atomic. An execution is therefore an interleaving of the
channel operations of the coordinator (the function itself) and of the five
workers; what a worker does between receiving a file name and sending it on
`results` (open, decode, resize, encode) touches no shared state and is taken to
succeed. -/

/-- The constant `workersNum`. -/
def workersNum : Nat := 5

/-- One worker goroutine: the file names its `range inputs` loop has received so
far, the one it is processing (between the receive and `results <- filename`),
the ones it has sent on `results`, and whether its loop has ended. -/
structure Worker where
  received : List GoString
  current : Option GoString
  sent : List GoString
  exited : Bool
deriving DecidableEq

/-- State of an execution of the pool: the file names the coordinator still has
to send, whether it has closed `inputs`, the buffers of the two channels (oldest
element first), the workers, the lines the coordinator has printed (file name
and index `i`) and whether it has returned. -/
structure Pool where
  toSend : List GoString
  closed : Bool
  inputs : List GoString
  workers : List Worker
  results : List GoString
  printed : List (GoString × Nat)
  returned : Bool
deriving DecidableEq

/-- State after `make(chan ...)` and the five `go` statements. -/
def Pool.init (imageFiles : List GoString) : Pool :=
  { toSend := imageFiles, closed := false, inputs := [],
    workers := List.replicate workersNum ⟨[], none, [], false⟩,
    results := [], printed := [], returned := false }

/-- The channel operations. -/
inductive ChanOp where
  /-- coordinator: `inputs <- fn` -/
  | feed : ChanOp
  /-- coordinator: `close(inputs)` -/
  | close : ChanOp
  /-- worker `w`: `range inputs` receives a file name -/
  | receive (w : Nat) : ChanOp
  /-- worker `w`: `results <- filename` -/
  | finish (w : Nat) : ChanOp
  /-- worker `w`: `range inputs` ends, the channel being closed and empty -/
  | leave (w : Nat) : ChanOp
  /-- coordinator: `<-results`, printed with the index `i` -/
  | collect : ChanOp
  /-- coordinator: the collecting loop ends and the function returns -/
  | ret : ChanOp
deriving DecidableEq

/-- One channel operation on channels of capacity `cap`; `none` when the
operation cannot take place in this state (the goroutine is elsewhere in its
code, or the operation blocks). -/
def Pool.step (cap : Nat) (s : Pool) : ChanOp → Option Pool
  | ChanOp.feed =>
      match s.toSend with
      | [] => none
      | f :: rest =>
          if s.inputs.length < cap then
            some { s with toSend := rest, inputs := s.inputs ++ [f] }
          else none
  | ChanOp.close =>
      if s.toSend = [] ∧ s.closed = false then some { s with closed := true } else none
  | ChanOp.receive w =>
      match s.workers[w]?, s.inputs with
      | some wk, f :: rest =>
          if wk.current = none ∧ wk.exited = false then
            some { s with inputs := rest,
                          workers := s.workers.set w
                            { wk with received := wk.received ++ [f], current := some f } }
          else none
      | _, _ => none
  | ChanOp.finish w =>
      match s.workers[w]? with
      | some wk =>
          match wk.current with
          | some f =>
              if s.results.length < cap then
                some { s with results := s.results ++ [f],
                              workers := s.workers.set w
                                { wk with sent := wk.sent ++ [f], current := none } }
              else none
          | none => none
      | none => none
  | ChanOp.leave w =>
      match s.workers[w]? with
      | some wk =>
          if wk.current = none ∧ wk.exited = false ∧ s.inputs = [] ∧ s.closed = true then
            some { s with workers := s.workers.set w { wk with exited := true } }
          else none
      | none => none
  | ChanOp.collect =>
      match s.results with
      | [] => none
      | f :: rest =>
          if s.closed = true ∧ s.printed.length < cap then
            some { s with results := rest, printed := s.printed ++ [(f, s.printed.length)] }
          else none
  | ChanOp.ret =>
      if s.closed = true ∧ s.printed.length = cap ∧ s.returned = false then
        some { s with returned := true }
      else none

/-- The state an interleaving (a schedule of channel operations) leads to from
`s`; `none` when one of its operations cannot take place. -/
def Pool.exec (cap : Nat) : Pool → List ChanOp → Option Pool
  | s, [] => some s
  | s, a :: rest =>
      match s.step cap a with
      | none => none
      | some s' => Pool.exec cap s' rest

/-- The state the schedule `sched` leads to when `workersPoolResizeImages` runs
on the eligible file names `imageFiles`. -/
def Pool.run (imageFiles : List GoString) (sched : List ChanOp) : Option Pool :=
  Pool.exec imageFiles.length (Pool.init imageFiles) sched

/-- All file names the workers have received, as a multiset. -/
def Pool.allReceived (s : Pool) : Multiset GoString :=
  (s.workers.map (fun w => (w.received : Multiset GoString))).sum

/-- All file names the workers have sent on `results`, as a multiset. -/
def Pool.allSent (s : Pool) : Multiset GoString :=
  (s.workers.map (fun w => (w.sent : Multiset GoString))).sum

/-- Number of channel operations still to come before every goroutine is done. -/
def Pool.remaining (s : Pool) : Nat :=
  4 * s.toSend.length + (if s.closed then 0 else 1) + 3 * s.inputs.length
    + (s.workers.map (fun w => (if w.current.isSome then 2 else 0)
        + (if w.exited then 0 else 1))).sum
    + s.results.length + (if s.returned then 0 else 1)

/-- What holds in every state an interleaving can reach from `Pool.init files`. -/
structure Pool.Inv (files : List GoString) (s : Pool) : Prop where
  workers_len : s.workers.length = workersNum
  conserve : (files : Multiset GoString)
    = (s.toSend : Multiset GoString) + (s.inputs : Multiset GoString) + s.allReceived
  perWorker : ∀ w ∈ s.workers, w.received = w.sent ++ w.current.toList
  resultsAcc : s.allSent
    = (s.results : Multiset GoString) + ((s.printed.map Prod.fst : List GoString) : Multiset GoString)
  indices : s.printed.map Prod.snd = List.range s.printed.length
  printed_le : s.printed.length ≤ files.length
  closed_toSend : s.closed = true → s.toSend = []
  exited_drained : ∀ w ∈ s.workers, w.exited = true →
    s.closed = true ∧ s.inputs = [] ∧ w.current = none
  returned_done : s.returned = true → s.closed = true ∧ s.printed.length = files.length

/-- An interleaving for the two files `a.png` and `b.jpg`: worker 0 takes
`a.png`, worker 1 takes `b.jpg` and finishes first. -/
def demoSchedule : List ChanOp :=
  [ChanOp.feed, ChanOp.feed, ChanOp.close, ChanOp.receive 0, ChanOp.receive 1,
   ChanOp.finish 1, ChanOp.finish 0, ChanOp.collect, ChanOp.collect, ChanOp.ret]

/-- The state `demoSchedule` leads to. -/
def demoFinal : Pool :=
  { toSend := [], closed := true, inputs := [],
    workers := [⟨[ascii "a.png"], none, [ascii "a.png"], false⟩,
                ⟨[ascii "b.jpg"], none, [ascii "b.jpg"], false⟩,
                ⟨[], none, [], false⟩, ⟨[], none, [], false⟩, ⟨[], none, [], false⟩],
    results := [], printed := [(ascii "b.jpg", 0), (ascii "a.png", 1)], returned := true }

/-! ## Rounding to nearest: the basic facts -/

theorem bitLenAux_zero (fuel : Nat) : bitLenAux fuel 0 = 0 := by
  cases fuel <;> simp [bitLenAux]

theorem bitLenAux_spec (fuel : Nat) : ∀ n, n < 2 ^ fuel →
    n < 2 ^ bitLenAux fuel n ∧ (n ≠ 0 → 2 ^ (bitLenAux fuel n - 1) ≤ n) := by
  induction fuel with
  | zero =>
    intro n hn
    have h0 : n = 0 := by simpa using hn
    subst h0
    simp [bitLenAux]
  | succ k ih =>
    intro n hn
    by_cases h0 : n = 0
    · subst h0
      simp [bitLenAux]
    · have hlt : n / 2 < 2 ^ k := by
        rw [pow_succ] at hn
        omega
      obtain ⟨h1, h2⟩ := ih (n / 2) hlt
      have hdef : bitLenAux (k + 1) n = bitLenAux k (n / 2) + 1 := by
        simp [bitLenAux, h0]
      rw [hdef]
      refine ⟨?_, fun _ => ?_⟩
      · rw [pow_succ]
        omega
      · simp only [Nat.add_sub_cancel]
        by_cases hh : n / 2 = 0
        · rw [hh, bitLenAux_zero]
          simp
          omega
        · have h3 := h2 hh
          have h4 : 2 ^ bitLenAux k (n / 2) = 2 ^ (bitLenAux k (n / 2) - 1) * 2 := by
            rw [← pow_succ]
            congr 1
            have : bitLenAux k (n / 2) ≠ 0 := by
              intro hz
              rw [hz] at h1
              simp at h1
              exact hh h1
            omega
          omega

theorem lt_two_pow_bitLen (n : Nat) : n < 2 ^ bitLen n :=
  (bitLenAux_spec n n (Nat.lt_two_pow n)).1

theorem two_pow_bitLen_le (n : Nat) (h : n ≠ 0) : 2 ^ (bitLen n - 1) ≤ n :=
  (bitLenAux_spec n n (Nat.lt_two_pow n)).2 h

theorem bitLen_le_iff (n k : Nat) : bitLen n ≤ k ↔ n < 2 ^ k := by
  constructor
  · intro h
    exact lt_of_lt_of_le (lt_two_pow_bitLen n) (Nat.pow_le_pow_right (by norm_num) h)
  · intro h
    by_contra hc
    have h0 : n ≠ 0 := by
      rintro rfl
      simp [bitLen, bitLenAux_zero] at hc
    have h1 := two_pow_bitLen_le n h0
    have h2 : 2 ^ k ≤ 2 ^ (bitLen n - 1) := Nat.pow_le_pow_right (by norm_num) (by omega)
    omega

theorem bitLen_mono {a b : Nat} (h : a ≤ b) : bitLen a ≤ bitLen b :=
  (bitLen_le_iff a _).2 (lt_of_le_of_lt h (lt_two_pow_bitLen b))

theorem roundShift_cases (M s : Nat) :
    (roundShift M s = M / 2 ^ s ∧ 2 * (M % 2 ^ s) ≤ 2 ^ s) ∨
    (roundShift M s = M / 2 ^ s + 1 ∧ 2 ^ s ≤ 2 * (M % 2 ^ s)) := by
  unfold roundShift
  simp only
  split_ifs <;> omega

theorem roundShift_ge (M s : Nat) : M / 2 ^ s ≤ roundShift M s := by
  rcases roundShift_cases M s with h | h <;> omega

theorem roundShift_le (M s : Nat) : roundShift M s ≤ M / 2 ^ s + 1 := by
  rcases roundShift_cases M s with h | h <;> omega

theorem roundShift_of_dvd (M s : Nat) (h : 2 ^ s ∣ M) : roundShift M s = M / 2 ^ s := by
  have hr : M % 2 ^ s = 0 := Nat.mod_eq_zero_of_dvd h
  have hp : 0 < 2 ^ s := Nat.pos_pow_of_pos s (by norm_num)
  unfold roundShift
  simp only [hr]
  rw [if_pos (by omega)]

theorem roundShift_mono (s : Nat) {M N : Nat} (h : M ≤ N) :
    roundShift M s ≤ roundShift N s := by
  have hp : 0 < 2 ^ s := Nat.pos_pow_of_pos s (by norm_num)
  have hq : M / 2 ^ s ≤ N / 2 ^ s := Nat.div_le_div_right h
  have hM := Nat.div_add_mod M (2 ^ s)
  have hN := Nat.div_add_mod N (2 ^ s)
  have hrM := Nat.mod_lt M hp
  have hrN := Nat.mod_lt N hp
  rcases Nat.lt_or_ge (M / 2 ^ s) (N / 2 ^ s) with hlt | hge
  · have := roundShift_le M s
    have := roundShift_ge N s
    omega
  · have heq : M / 2 ^ s = N / 2 ^ s := le_antisymm hq hge
    have hr : M % 2 ^ s ≤ N % 2 ^ s := by
      rw [heq] at hM
      omega
    unfold roundShift
    simp only [heq]
    split_ifs <;> omega

/-- Twice the rounded value exceeds twice the exact one by at most one unit. -/
theorem roundShift_err (M s : Nat) : 2 * (roundShift M s * 2 ^ s) ≤ 2 * M + 2 ^ s := by
  have hM := Nat.div_add_mod M (2 ^ s)
  rcases roundShift_cases M s with ⟨h, _⟩ | ⟨h, h2⟩
  · rw [h]
    have : M / 2 ^ s * 2 ^ s ≤ M := Nat.div_mul_le_self M (2 ^ s)
    omega
  · rw [h, Nat.add_mul, Nat.mul_comm (M / 2 ^ s)]
    omega

theorem rnd_fix (smin a b : Nat) (ha : a < 2 ^ 53) (hb : smin ≤ b) :
    rnd smin (a * 2 ^ b) = a * 2 ^ b := by
  have hlen : bitLen (a * 2 ^ b) ≤ 53 + b := by
    rw [bitLen_le_iff, pow_add]
    exact Nat.mul_lt_mul_of_lt_of_le ha le_rfl (Nat.pos_pow_of_pos b (by norm_num))
  have hs : max (bitLen (a * 2 ^ b) - 53) smin ≤ b := by omega
  have hdvd : 2 ^ max (bitLen (a * 2 ^ b) - 53) smin ∣ a * 2 ^ b :=
    Dvd.dvd.mul_left (Nat.pow_dvd_pow 2 hs) a
  unfold rnd
  rw [roundShift_of_dvd _ _ hdvd]
  exact Nat.div_mul_cancel hdvd

theorem rnd_mono (smin : Nat) {M N : Nat} (h : M ≤ N) : rnd smin M ≤ rnd smin N := by
  have hb := bitLen_mono h
  unfold rnd
  set s := max (bitLen M - 53) smin with hs
  set t := max (bitLen N - 53) smin with ht
  rcases Nat.lt_or_ge s t with hlt | hge
  · -- the larger value lies in a higher binade
    have ht1 : t = bitLen N - 53 := by omega
    have hN0 : N ≠ 0 := by
      rintro rfl
      simp [bitLen, bitLenAux_zero] at ht1
      omega
    have hNlow : 2 ^ (52 + t) ≤ N := by
      have := two_pow_bitLen_le N hN0
      have he : bitLen N - 1 = 52 + t := by omega
      rwa [he] at this
    have hMup : M < 2 ^ (53 + s) := by
      rw [← bitLen_le_iff]
      omega
    have hq : M / 2 ^ s < 2 ^ 53 := by
      rw [Nat.div_lt_iff_lt_mul (Nat.pos_pow_of_pos s (by norm_num)), ← pow_add]
      exact hMup
    have h1 : roundShift M s * 2 ^ s ≤ 2 ^ 53 * 2 ^ s :=
      Nat.mul_le_mul_right _ (le_trans (roundShift_le M s) hq)
    have h2 : 2 ^ 52 * 2 ^ t ≤ roundShift N t * 2 ^ t := by
      apply Nat.mul_le_mul_right
      apply le_trans _ (roundShift_ge N t)
      rw [Nat.le_div_iff_mul_le (Nat.pos_pow_of_pos t (by norm_num)), ← pow_add]
      exact hNlow
    have h3 : 2 ^ 53 * 2 ^ s ≤ 2 ^ 52 * 2 ^ t := by
      rw [← pow_add, ← pow_add]
      exact Nat.pow_le_pow_right (by norm_num) (by omega)
    omega
  · have hst : s = t := by omega
    rw [← hst]
    exact Nat.mul_le_mul_right _ (roundShift_mono s h)

theorem rnd_rel (smin M : Nat) (h : smin ≤ bitLen M - 53) :
    2 ^ 53 * rnd smin M ≤ (2 ^ 53 + 1) * M := by
  unfold rnd
  have hs : max (bitLen M - 53) smin = bitLen M - 53 := by omega
  rw [hs]
  rcases Nat.eq_zero_or_pos (bitLen M - 53) with h0 | hpos
  · rw [h0, roundShift_of_dvd M 0 (by simp)]
    simp
    omega
  · have hM0 : M ≠ 0 := by
      rintro rfl
      simp [bitLen, bitLenAux_zero] at hpos
    have hlow := two_pow_bitLen_le M hM0
    have herr := roundShift_err M (bitLen M - 53)
    have he : 2 ^ (bitLen M - 1) = 2 ^ 52 * 2 ^ (bitLen M - 53) := by
      rw [← pow_add]
      congr 1
      omega
    rw [he] at hlow
    generalize roundShift M (bitLen M - 53) * 2 ^ (bitLen M - 53) = R at *
    generalize 2 ^ (bitLen M - 53) = P at *
    omega

/-! ## The float expression `int(float64(j) * f)` in integer arithmetic -/

theorem bitLen_zero : bitLen 0 = 0 := by
  simp [bitLen, bitLenAux_zero]

theorem ofInt_natCast (j : Nat) (hj : j < 2 ^ 53) :
    F64.ofInt (j : Int) = F64.fin false j 0 := by
  have hb : bitLen j - 53 = 0 := by
    have := (bitLen_le_iff j 53).2 hj
    omega
  have hr : roundShift j 0 = j := by
    rw [roundShift_of_dvd j 0 (by simp)]
    simp
  have hlen : ¬ (1024 < (bitLen j : Int)) := by
    have := (bitLen_le_iff j 53).2 hj
    omega
  simp [F64.ofInt, F64.round, F64.dropBits, hb, hr, hlen]

theorem truncMag_shift (m s K : Nat) (h : s ≤ K) :
    F64.truncMag m (-(K : Int) + (s : Int)) = m * 2 ^ s / 2 ^ K := by
  have hK : (2 : Nat) ^ K = 2 ^ s * 2 ^ (K - s) := by
    rw [← pow_add]
    congr 1
    omega
  have hdiv : m * 2 ^ s / 2 ^ K = m / 2 ^ (K - s) := by
    rw [hK, Nat.mul_comm m, Nat.mul_div_mul_left _ _ (Nat.pos_pow_of_pos s (by norm_num))]
  rw [hdiv]
  unfold F64.truncMag
  rcases Nat.eq_or_lt_of_le h with heq | hlt
  · subst heq
    simp
  · have hneg : ¬ (0 ≤ -(K : Int) + (s : Int)) := by omega
    rw [if_neg hneg]
    have : (-(-(K : Int) + (s : Int))).toNat = K - s := by omega
    rw [this]

theorem rnd_le_of_le (smin a b M : Nat) (ha : a < 2 ^ 53) (hb : smin ≤ b)
    (h : M ≤ a * 2 ^ b) : rnd smin M ≤ a * 2 ^ b := by
  have := rnd_mono smin h
  rwa [rnd_fix smin a b ha hb] at this

theorem le_rnd_of_le (smin a b M : Nat) (ha : a < 2 ^ 53) (hb : smin ≤ b)
    (h : a * 2 ^ b ≤ M) : a * 2 ^ b ≤ rnd smin M := by
  have := rnd_mono smin h
  rwa [rnd_fix smin a b ha hb] at this

theorem xmap_le (mf K j : Nat) (hj : j < 2 ^ 53) (hf : mf ≤ 2 ^ K) : xmap mf K j ≤ j := by
  unfold xmap
  have h1 : rnd (K - 1074) (j * mf) ≤ j * 2 ^ K :=
    rnd_le_of_le _ j K _ hj (by omega) (Nat.mul_le_mul_left j hf)
  calc rnd (K - 1074) (j * mf) / 2 ^ K ≤ j * 2 ^ K / 2 ^ K := Nat.div_le_div_right h1
    _ = j := Nat.mul_div_cancel j (Nat.pos_pow_of_pos K (by norm_num))

/-- The product `float64(j) * f` for a source index `j < 2 ^ 53` and a factor
`f = mf * 2 ^ (-K)` with `f ≤ 1`: a finite value, never an infinity. -/
theorem mul_ofInt_eq (mf K j : Nat) (hj : j < 2 ^ 53) (hf : mf ≤ 2 ^ K) :
    max (bitLen (j * mf) - 53) (K - 1074) ≤ K ∧
    F64.mul (F64.ofInt (j : Int)) (F64.fin false mf (-(K : Int)))
      = F64.fin false (roundShift (j * mf) (max (bitLen (j * mf) - 53) (K - 1074)))
          (-(K : Int) + ((max (bitLen (j * mf) - 53) (K - 1074) : Nat) : Int)) := by
  have hp : 0 < 2 ^ K := Nat.pos_pow_of_pos K (by norm_num)
  have hM : j * mf < 2 ^ (53 + K) := by
    rw [pow_add]
    calc j * mf ≤ j * 2 ^ K := Nat.mul_le_mul_left j hf
      _ < 2 ^ 53 * 2 ^ K := Nat.mul_lt_mul_of_pos_right hj hp
  have hlen : bitLen (j * mf) ≤ 53 + K := (bitLen_le_iff _ _).2 hM
  have hdrop : F64.dropBits (j * mf) (-(K : Int)) = max (bitLen (j * mf) - 53) (K - 1074) := by
    have h : (-1074 - -(K : Int)).toNat = K - 1074 := by omega
    unfold F64.dropBits
    rw [h]
  set s := max (bitLen (j * mf) - 53) (K - 1074) with hs
  have hsK : s ≤ K := by omega
  have hq : j * mf / 2 ^ s < 2 ^ 53 := by
    rw [Nat.div_lt_iff_lt_mul (Nat.pos_pow_of_pos s (by norm_num)), ← pow_add]
    apply lt_of_lt_of_le (lt_two_pow_bitLen _)
    exact Nat.pow_le_pow_right (by norm_num) (by omega)
  have hm : roundShift (j * mf) s < 2 ^ 54 := by
    have := roundShift_le (j * mf) s
    have h54 : (2 : Nat) ^ 54 = 2 * 2 ^ 53 := by norm_num
    omega
  have hmlen : bitLen (roundShift (j * mf) s) ≤ 54 := (bitLen_le_iff _ _).2 hm
  refine ⟨hsK, ?_⟩
  rw [ofInt_natCast j hj]
  simp only [F64.mul, F64.round, Bool.xor_false, zero_add, hdrop]
  rw [if_neg (fun hc => by omega)]

/-- The program's `int(float64(j) * f)` for a source index `j < 2 ^ 53` and a
factor `f = mf * 2 ^ (-K)` with `f ≤ 1`, computed on integers. -/
theorem scaleIndex_eq (mf K j : Nat) (hj : j < 2 ^ 53) (hf : mf ≤ 2 ^ K) :
    scaleIndex (j : Int) (F64.fin false mf (-(K : Int))) = (xmap mf K j : Int) := by
  obtain ⟨hsK, hfin⟩ := mul_ofInt_eq mf K j hj hf
  have hx : xmap mf K j = roundShift (j * mf) (max (bitLen (j * mf) - 53) (K - 1074))
      * 2 ^ (max (bitLen (j * mf) - 53) (K - 1074)) / 2 ^ K := rfl
  have hxle := xmap_le mf K j hj hf
  unfold scaleIndex
  rw [hfin]
  simp only [F64.toInt, Bool.false_eq_true, if_false, truncMag_shift _ _ _ hsK, ← hx]
  rw [if_pos]
  constructor
  · have : (0 : Int) ≤ (xmap mf K j : Int) := Int.natCast_nonneg _
    omega
  · have h63 : (2 : Int) ^ 63 = 9223372036854775808 := by norm_num
    have h53 : (2 : Nat) ^ 53 = 9007199254740992 := by norm_num
    omega

/-- The exact rational value of the rounded product `float64(j) * f`. -/
theorem toRat_mul_ofInt (mf K j : Nat) (hj : j < 2 ^ 53) (hf : mf ≤ 2 ^ K) :
    (F64.mul (F64.ofInt (j : Int)) (F64.fin false mf (-(K : Int)))).toRat
      = (rnd (K - 1074) (j * mf) : ℚ) / 2 ^ K := by
  obtain ⟨hsK, hfin⟩ := mul_ofInt_eq mf K j hj hf
  rw [hfin]
  unfold F64.toRat rnd
  simp only [Bool.false_eq_true, if_false, one_mul]
  rw [zpow_add₀ (by norm_num), zpow_neg, zpow_natCast, zpow_natCast]
  push_cast
  field_simp

/-- The spec's `floor (W * f)` for `f = mf * 2 ^ (-K)`, on integers. -/
theorem exactFloor_eq (mf K W : Nat) :
    exactFloor W (F64.fin false mf (-(K : Int))) = ((W * mf / 2 ^ K : Nat) : Int) := by
  unfold exactFloor F64.toRat
  simp only [Bool.false_eq_true, if_false, one_mul]
  have h : (W : ℚ) * ((mf : ℚ) * (2 : ℚ) ^ (-(K : Int))) = ((W * mf : Nat) : ℚ) / ((2 ^ K : Nat) : ℚ) := by
    rw [zpow_neg, zpow_natCast]
    push_cast
    field_simp
  rw [h, Rat.floor_natCast_div_natCast]
  norm_cast

/-- The computed index is the exact floor or one more; one more only when
the rounded product is that integer. -/
theorem xmap_sandwich (mf K W : Nat) (hW : W < 2 ^ 53) (hlt : mf < 2 ^ K) :
    W * mf / 2 ^ K ≤ xmap mf K W ∧ xmap mf K W ≤ W * mf / 2 ^ K + 1 ∧
    (xmap mf K W = W * mf / 2 ^ K + 1 →
      rnd (K - 1074) (W * mf) = (W * mf / 2 ^ K + 1) * 2 ^ K) := by
  have hp : 0 < 2 ^ K := Nat.pos_pow_of_pos K (by norm_num)
  have hFW : W * mf / 2 ^ K ≤ W := by
    calc W * mf / 2 ^ K ≤ W * 2 ^ K / 2 ^ K :=
          Nat.div_le_div_right (Nat.mul_le_mul_left W hlt.le)
      _ = W := Nat.mul_div_cancel W hp
  have hF1 : W * mf / 2 ^ K + 1 < 2 ^ 53 ∨ W = 0 := by
    rcases Nat.eq_zero_or_pos W with h0 | hpos
    · exact Or.inr h0
    · left
      have : W * mf / 2 ^ K < W := by
        rw [Nat.div_lt_iff_lt_mul hp]
        exact Nat.mul_lt_mul_of_pos_left hlt hpos
      omega
  have hlow : W * mf / 2 ^ K * 2 ^ K ≤ rnd (K - 1074) (W * mf) :=
    le_rnd_of_le _ _ K _ (by omega) (by omega) (Nat.div_mul_le_self _ _)
  have hup : rnd (K - 1074) (W * mf) ≤ (W * mf / 2 ^ K + 1) * 2 ^ K := by
    rcases hF1 with h | h
    · apply rnd_le_of_le _ _ K _ h (by omega)
      exact le_of_lt (Nat.lt_mul_of_div_lt (Nat.lt_succ_self _) hp)
    · subst h
      have := rnd_fix (K - 1074) 0 (K - 1074) (by norm_num) le_rfl
      simp at this
      simp [this]
  refine ⟨(Nat.le_div_iff_mul_le hp).2 hlow, ?_, fun h => ?_⟩
  · unfold xmap
    have := Nat.div_le_div_right (c := 2 ^ K) hup
    rwa [Nat.mul_div_cancel _ hp] at this
  · have h1 := Nat.div_mul_le_self (rnd (K - 1074) (W * mf)) (2 ^ K)
    unfold xmap at h
    rw [h] at h1
    omega

theorem xmap_mono (mf K : Nat) {j j' : Nat} (h : j ≤ j') : xmap mf K j ≤ xmap mf K j' := by
  unfold xmap
  exact Nat.div_le_div_right (rnd_mono _ (Nat.mul_le_mul_right mf h))

theorem xmap_zero (mf K : Nat) : xmap mf K 0 = 0 := by
  have h : rnd (K - 1074) 0 = 0 := by
    have := rnd_fix (K - 1074) 0 (K - 1074) (by norm_num) le_rfl
    simpa using this
  simp [xmap, h]

/-! ## Consecutive source indices never skip an output index (small images) -/

theorem jump_arith (D mf j N B : ℤ) (hmf : 0 < mf) (hlt : mf < D)
    (hv : 9007199254740992 * mf ≤ 9007199254740991 * D)
    (hq : 9007199254740992 * B ≤ 9007199254740993 * ((j + 1) * mf))
    (hN : N * D ≤ B) (hj0 : 0 ≤ j) (hj : j + 1 ≤ 67108864) (hN1 : 1 ≤ N) :
    (N - 1) * D ≤ j * mf := by
  have hD : 0 < D := by linarith
  -- the quotient cannot reach `j + 1`
  have hNj : N ≤ j := by
    by_contra hc
    have hc1 : j + 1 ≤ N := by omega
    have h1 : (j + 1) * D ≤ N * D := mul_le_mul_of_nonneg_right hc1 hD.le
    have h2 : 9007199254740993 * mf < 9007199254740992 * D := by linarith
    have h3 : (j + 1) * (9007199254740993 * mf) < (j + 1) * (9007199254740992 * D) :=
      mul_lt_mul_of_pos_left h2 (by linarith)
    nlinarith
  rcases le_or_lt (j * (D - mf)) D with hc | hc
  · have h1 : (N - 1) * D ≤ (j - 1) * D := mul_le_mul_of_nonneg_right (by linarith) hD.le
    nlinarith
  · have hjpos : 0 < j := by
      by_contra h0
      have : j = 0 := by omega
      subst this
      simp at hc
      linarith
    have hjj : j * (j + 1) ≤ 9007199254740992 := by nlinarith
    have hT : 0 < D - mf := by linarith
    have h1 : (j + 1) * mf ≤ (j + 1) * D := mul_le_mul_of_nonneg_left hlt.le (by linarith)
    have h2 : (j + 1) * D ≤ (j + 1) * (j * (D - mf)) :=
      mul_le_mul_of_nonneg_left hc.le (by linarith)
    have h3 : j * (j + 1) * (D - mf) ≤ 9007199254740992 * (D - mf) :=
      mul_le_mul_of_nonneg_right hjj hT.le
    have h4 : (j + 1) * mf ≤ 9007199254740992 * (D - mf) := by nlinarith
    have h5 : 9007199254740992 * ((N - 1) * D) ≤ 9007199254740992 * (j * mf) := by nlinarith
    exact le_of_mul_le_mul_left h5 (by norm_num)

theorem binary64_lt_one (mf K : Nat) (hmf : mf < 2 ^ 53) (hlt : mf < 2 ^ K) :
    2 ^ 53 * mf ≤ (2 ^ 53 - 1) * 2 ^ K := by
  rcases Nat.lt_or_ge 53 K with h | h
  · have h1 : (2 : Nat) ^ 54 ≤ 2 ^ K := Nat.pow_le_pow_right (by norm_num) h
    have h2 : 2 ^ 53 * mf ≤ 2 ^ 53 * 2 ^ 53 := Nat.mul_le_mul_left _ hmf.le
    have h3 : (2 ^ 53 - 1) * 2 ^ 54 ≤ (2 ^ 53 - 1) * 2 ^ K := Nat.mul_le_mul_left _ h1
    have h4 : (2 : Nat) ^ 53 * 2 ^ 53 ≤ (2 ^ 53 - 1) * 2 ^ 54 := by norm_num
    omega
  · have h1 : (2 : Nat) ^ K ≤ 2 ^ 53 := Nat.pow_le_pow_right (by norm_num) h
    have h2 : 2 ^ 53 * mf ≤ 2 ^ 53 * (2 ^ K - 1) := Nat.mul_le_mul_left _ (by omega)
    have h3 : 2 ^ 53 * (2 ^ K - 1) = 2 ^ 53 * 2 ^ K - 2 ^ 53 := by
      rw [Nat.mul_sub, Nat.mul_one]
    have h4 : (2 ^ 53 - 1) * 2 ^ K = 2 ^ 53 * 2 ^ K - 2 ^ K := by
      rw [Nat.sub_mul, Nat.one_mul]
    omega

/-- For a binary64 factor below one, stepping the source index by one moves the
output index by at most one, as long as the source index is at most `2 ^ 26`. -/
theorem xmap_succ_le (mf K j : Nat) (hmf0 : 0 < mf) (hmf : mf < 2 ^ 53) (hK : K ≤ 1074)
    (hlt : mf < 2 ^ K) (hj : j + 1 ≤ 2 ^ 26) :
    xmap mf K (j + 1) ≤ xmap mf K j + 1 := by
  have hp : 0 < 2 ^ K := Nat.pos_pow_of_pos K (by norm_num)
  have hs : K - 1074 = 0 := by omega
  have hj53 : j + 1 < 2 ^ 53 := lt_of_le_of_lt hj (by norm_num)
  rcases Nat.eq_zero_or_pos (xmap mf K (j + 1)) with h0 | hpos
  · omega
  · have hNle : xmap mf K (j + 1) ≤ j + 1 := xmap_le mf K (j + 1) hj53 hlt.le
    have hND : xmap mf K (j + 1) * 2 ^ K ≤ rnd 0 ((j + 1) * mf) := by
      have := Nat.div_mul_le_self (rnd (K - 1074) ((j + 1) * mf)) (2 ^ K)
      rw [hs] at this
      rw [xmap, hs]
      exact this
    have hq := rnd_rel 0 ((j + 1) * mf) (Nat.zero_le _)
    have hv := binary64_lt_one mf K hmf hlt
    have hkey : (xmap mf K (j + 1) - 1) * 2 ^ K ≤ j * mf := by
      have hz := jump_arith ((2 : Int) ^ K) mf j (xmap mf K (j + 1)) (rnd 0 ((j + 1) * mf))
        (by exact_mod_cast hmf0) (by exact_mod_cast hlt)
        (by
          have : (2 ^ 53 * mf : Nat) ≤ (2 ^ 53 - 1) * 2 ^ K := hv
          have h2 : ((2 ^ 53 * mf : Nat) : Int) ≤ (((2 ^ 53 - 1) * 2 ^ K : Nat) : Int) :=
            Int.ofNat_le.2 this
          push_cast at h2
          linarith)
        (by
          have h2 : ((2 ^ 53 * rnd 0 ((j + 1) * mf) : Nat) : Int)
              ≤ (((2 ^ 53 + 1) * ((j + 1) * mf) : Nat) : Int) := Int.ofNat_le.2 hq
          push_cast at h2
          linarith)
        (by exact_mod_cast hND) (Int.natCast_nonneg j)
        (by
          have : ((j + 1 : Nat) : Int) ≤ ((2 ^ 26 : Nat) : Int) := Int.ofNat_le.2 hj
          push_cast at this
          linarith)
        (by exact_mod_cast hpos)
      have hc : (((xmap mf K (j + 1) - 1) * 2 ^ K : Nat) : Int) ≤ ((j * mf : Nat) : Int) := by
        rw [Nat.cast_mul, Nat.cast_sub hpos]
        push_cast
        exact hz
      exact Int.ofNat_le.1 hc
    have hlow : (xmap mf K (j + 1) - 1) * 2 ^ K ≤ rnd (K - 1074) (j * mf) :=
      le_rnd_of_le _ _ K _ (by omega) (by omega) hkey
    have : xmap mf K (j + 1) - 1 ≤ xmap mf K j := by
      unfold xmap
      exact (Nat.le_div_iff_mul_le hp).2 hlow
    omega

/-- Every output index below `xmap n` is the image of a source index below `n`. -/
theorem xmap_surj (mf K : Nat) (hmf0 : 0 < mf) (hmf : mf < 2 ^ 53) (hK : K ≤ 1074)
    (hlt : mf < 2 ^ K) (n : Nat) (hn : n ≤ 2 ^ 26) :
    ∀ x, x < xmap mf K n → ∃ j, j < n ∧ xmap mf K j = x := by
  induction n with
  | zero =>
    intro x hx
    rw [xmap_zero] at hx
    omega
  | succ k ih =>
    intro x hx
    have hstep := xmap_succ_le mf K k hmf0 hmf hK hlt hn
    rcases Nat.lt_or_ge x (xmap mf K k) with h | h
    · obtain ⟨j, hj, hjx⟩ := ih (by omega) x h
      exact ⟨j, by omega, hjx⟩
    · exact ⟨k, by omega, by omega⟩

/-- A `float64` strictly between `0.0` and `1.0` is `mf * 2 ^ (-K)` with
`0 < mf < 2 ^ K`. -/
theorem factor_form (f : F64) (h0 : F64.lt F64.zero f = true) (h1 : F64.lt f F64.one = true) :
    ∃ mf K : Nat, f = F64.fin false mf (-(K : Int)) ∧ 0 < mf ∧ mf < 2 ^ K := by
  cases f with
  | nan => simp [F64.lt, F64.zero] at h0
  | inf neg => cases neg <;> simp [F64.lt, F64.one, F64.zero] at h0 h1
  | fin neg m e =>
    simp only [F64.lt, F64.zero, F64.one, F64.scaled, decide_eq_true_eq] at h0 h1
    have hneg : neg = false := by
      cases neg
      · rfl
      · exfalso
        simp at h0
        have : (0 : Int) ≤ (m : Int) * 2 ^ (e - min 0 e).toNat := by positivity
        omega
    subst hneg
    simp only [Bool.false_eq_true, if_false, Nat.cast_zero, zero_mul, Nat.cast_one, one_mul] at h0 h1
    have hm : 0 < m := by
      rcases Nat.eq_zero_or_pos m with hz | hz
      · subst hz
        simp at h0
      · exact hz
    have he : e < 0 := by
      by_contra hc
      have hmin : min e 0 = 0 := by omega
      rw [hmin] at h1
      simp at h1
      have h2 : (1 : Int) ≤ (m : Int) := by exact_mod_cast hm
      have h3 : (1 : Int) ≤ 2 ^ e.toNat := one_le_pow₀ (by norm_num)
      nlinarith
    refine ⟨m, (-e).toNat, ?_, hm, ?_⟩
    · congr 1
      omega
    · have hmin : min e 0 = e := by omega
      rw [hmin] at h1
      simp at h1
      exact_mod_cast h1

theorem factor_form_binary64 (f : F64) (hv : f.IsBinary64) (h0 : F64.lt F64.zero f = true)
    (h1 : F64.lt f F64.one = true) :
    ∃ mf K : Nat, f = F64.fin false mf (-(K : Int)) ∧ 0 < mf ∧ mf < 2 ^ K ∧ mf < 2 ^ 53
      ∧ K ≤ 1074 := by
  obtain ⟨mf, K, rfl, hm, hlt⟩ := factor_form f h0 h1
  simp only [F64.IsBinary64] at hv
  exact ⟨mf, K, rfl, hm, hlt, hv.1, by omega⟩

/-! ## The loops of `resizeImage`: the last write to a position wins -/

theorem Set_rect (p : RGBAImage) (x y : Int) (c : RGBA) : (p.Set x y c).rect = p.rect := by
  unfold RGBAImage.Set
  split_ifs <;> rfl

theorem Set_pix_same (p : RGBAImage) (x y : Int) (c : RGBA) (h : p.rect.Contains x y) :
    (p.Set x y c).pix x y = c := by
  unfold RGBAImage.Set
  rw [if_pos h]
  simp

theorem Set_pix_other (p : RGBAImage) (x y u v : Int) (c : RGBA) (h : ¬ (u = x ∧ v = y)) :
    (p.Set x y c).pix u v = p.pix u v := by
  unfold RGBAImage.Set
  split_ifs
  · simp only
    rw [if_neg h]
  · rfl

theorem fold_rect (step : Nat → RGBAImage → RGBAImage)
    (hrect : ∀ k o, (step k o).rect = o.rect) (n : Nat) (out : RGBAImage) :
    ((List.range n).foldl (fun o k => step k o) out).rect = out.rect := by
  induction n with
  | zero => simp
  | succ m ih => rw [List.range_succ, List.foldl_append]; simp [hrect, ih]

/-- A position that no step of the loop changes keeps its value. -/
theorem fold_untouched (step : Nat → RGBAImage → RGBAImage)
    (hrect : ∀ k o, (step k o).rect = o.rect) (R : Rectangle) (u v : Int) (n : Nat)
    (h : ∀ k, k < n → ∀ o, o.rect = R → (step k o).pix u v = o.pix u v)
    (out : RGBAImage) (hout : out.rect = R) :
    ((List.range n).foldl (fun o k => step k o) out).pix u v = out.pix u v := by
  induction n with
  | zero => simp
  | succ m ih =>
    rw [List.range_succ, List.foldl_append]
    simp only [List.foldl_cons, List.foldl_nil]
    rw [h m (Nat.lt_succ_self m) _ (by rw [fold_rect step hrect, hout])]
    exact ih (fun k hk => h k (Nat.lt_succ_of_lt hk))

/-- A position holds what step `k` wrote there when no later step changes it. -/
theorem fold_last (step : Nat → RGBAImage → RGBAImage)
    (hrect : ∀ k o, (step k o).rect = o.rect) (R : Rectangle) (u v : Int) (c : RGBA)
    (n k : Nat) (hk : k < n)
    (hw : ∀ o, o.rect = R → (step k o).pix u v = c)
    (hlater : ∀ k', k < k' → k' < n → ∀ o, o.rect = R → (step k' o).pix u v = o.pix u v)
    (out : RGBAImage) (hout : out.rect = R) :
    ((List.range n).foldl (fun o k => step k o) out).pix u v = c := by
  induction n with
  | zero => omega
  | succ m ih =>
    rw [List.range_succ, List.foldl_append]
    simp only [List.foldl_cons, List.foldl_nil]
    have hR : ((List.range m).foldl (fun o k => step k o) out).rect = R := by
      rw [fold_rect step hrect, hout]
    rcases Nat.lt_or_ge k m with hlt | hge
    · rw [hlater m hlt (Nat.lt_succ_self m) _ hR]
      exact ih hlt (fun k' h1 h2 => hlater k' h1 (Nat.lt_succ_of_lt h2))
    · have : k = m := by omega
      subst this
      exact hw _ hR

theorem resizeStep_rect (img : Image) (f : F64) (i j : Nat) (o : RGBAImage) :
    (resizeStep img f i j o).rect = o.rect := Set_rect _ _ _ _

theorem resizeRow_rect (img : Image) (f : F64) (i : Nat) (o : RGBAImage) :
    (resizeRow img f i o).rect = o.rect :=
  fold_rect (resizeStep img f i) (resizeStep_rect img f i) img.Dx o

theorem resizeImage_rect (img : Image) (f : F64) :
    (resizeImage img f).rect = Rect 0 0 (scaleIndex img.Dx f) (scaleIndex img.Dy f) :=
  fold_rect (resizeRow img f) (resizeRow_rect img f) img.Dy _

/-- A source row whose output row is not `v` leaves the positions of the output
row `v` alone. -/
theorem resizeRow_other_row (img : Image) (f : F64) (i : Nat) (u v : Int)
    (h : scaleIndex i f ≠ v) (o : RGBAImage) :
    (resizeRow img f i o).pix u v = o.pix u v := by
  refine fold_untouched (resizeStep img f i) (resizeStep_rect img f i) o.rect u v img.Dx
    (fun k _ o' _ => ?_) o rfl
  exact Set_pix_other _ _ _ _ _ _ (fun hc => h hc.2.symm)

theorem resizeRow_other_col (img : Image) (f : F64) (i : Nat) (u v : Int)
    (h : ∀ j, j < img.Dx → scaleIndex j f ≠ u) (o : RGBAImage) :
    (resizeRow img f i o).pix u v = o.pix u v := by
  refine fold_untouched (resizeStep img f i) (resizeStep_rect img f i) o.rect u v img.Dx
    (fun k hk o' _ => ?_) o rfl
  exact Set_pix_other _ _ _ _ _ _ (fun hc => h k hk hc.1.symm)

theorem resizeRow_last (img : Image) (f : F64) (i j : Nat) (hj : j < img.Dx)
    (hlast : ∀ j', j < j' → j' < img.Dx → scaleIndex j' f ≠ scaleIndex j f)
    (o : RGBAImage) (hin : o.rect.Contains (scaleIndex j f) (scaleIndex i f)) :
    (resizeRow img f i o).pix (scaleIndex j f) (scaleIndex i f) = sampleAt img j i := by
  refine fold_last (resizeStep img f i) (resizeStep_rect img f i) o.rect _ _ _ img.Dx j hj
    (fun o' ho' => ?_) (fun k h1 h2 o' _ => ?_) o rfl
  · exact Set_pix_same _ _ _ _ (by rw [ho']; exact hin)
  · exact Set_pix_other _ _ _ _ _ _ (fun hc => hlast k h1 h2 hc.1.symm)

/-- A position that no source column (or no source row) maps to is never
written: it keeps the zero colour `NewRGBA` gave it. -/
theorem resizeImage_unwritten (img : Image) (f : F64) (u v : Int)
    (h : (∀ j, j < img.Dx → scaleIndex j f ≠ u) ∨ (∀ i, i < img.Dy → scaleIndex i f ≠ v)) :
    (resizeImage img f).pix u v = ⟨0, 0, 0, 0⟩ := by
  have key : (resizeImage img f).pix u v
      = (NewRGBA (Rect 0 0 (scaleIndex img.Dx f) (scaleIndex img.Dy f))).pix u v := by
    refine fold_untouched (resizeRow img f) (resizeRow_rect img f) _ u v img.Dy
      (fun k hk o _ => ?_) _ rfl
    rcases h with h | h
    · exact resizeRow_other_col img f k u v h o
    · exact resizeRow_other_row img f k u v (h k hk) o
  rw [key]
  rfl

/-- Last write wins: the pixel at the image of `(j, i)` is the sample taken at
`(j, i)` when no later column and no later row maps to the same position. -/
theorem resizeImage_last (img : Image) (f : F64) (i j : Nat) (hi : i < img.Dy)
    (hj : j < img.Dx)
    (hlastj : ∀ j', j < j' → j' < img.Dx → scaleIndex j' f ≠ scaleIndex j f)
    (hlasti : ∀ i', i < i' → i' < img.Dy → scaleIndex i' f ≠ scaleIndex i f)
    (hin : (Rect 0 0 (scaleIndex img.Dx f) (scaleIndex img.Dy f)).Contains
      (scaleIndex j f) (scaleIndex i f)) :
    (resizeImage img f).pix (scaleIndex j f) (scaleIndex i f) = sampleAt img j i := by
  refine fold_last (resizeRow img f) (resizeRow_rect img f) _ _ _ _ img.Dy i hi
    (fun o ho => ?_) (fun k h1 h2 o _ => ?_) _ rfl
  · exact resizeRow_last img f i j hj hlastj o (by rw [ho]; exact hin)
  · exact resizeRow_other_row img f k _ _ (hlasti k h1 h2) o

/-- Among the indices below `n` with a property, when there is one, there is a last. -/
theorem exists_last (P : Nat → Prop) (n : Nat) (h : ∃ j, j < n ∧ P j) :
    ∃ j, j < n ∧ P j ∧ ∀ j', j < j' → j' < n → ¬ P j' := by
  classical
  induction n with
  | zero => obtain ⟨j, hj, _⟩ := h; omega
  | succ m ih =>
    by_cases hm : P m
    · exact ⟨m, Nat.lt_succ_self m, hm, fun j' h1 h2 => by omega⟩
    · obtain ⟨j, hj, hP⟩ := h
      have hjm : j < m := by
        rcases Nat.lt_or_ge j m with h1 | h1
        · exact h1
        · have : j = m := by omega
          subst this
          exact absurd hP hm
      obtain ⟨j0, h0, hP0, hl⟩ := ih ⟨j, hjm, hP⟩
      refine ⟨j0, Nat.lt_succ_of_lt h0, hP0, fun j' h1 h2 => ?_⟩
      rcases Nat.lt_or_ge j' m with h3 | h3
      · exact hl j' h1 h3
      · have : j' = m := by omega
        subst this
        exact hm

/-! ## The sampler: `average2x2` and `clamp` -/

theorem averageChannel_eq (a b c d : Nat) (ha : a ≤ 65535) (hb : b ≤ 65535) (hc : c ≤ 65535)
    (hd : d ≤ 65535) : TruncatedMean (averageChannel a b c d) a b c d := by
  have hs : a + b + c + d < 2 ^ 24 := by
    have : (2 : Nat) ^ 24 = 16777216 := by norm_num
    omega
  have hmod : (a + b + c + d) % 2 ^ 32 = a + b + c + d :=
    Nat.mod_eq_of_lt (lt_trans hs (by norm_num))
  have hb0 : bitLen (a + b + c + d) - 24 = 0 := by
    have := (bitLen_le_iff (a + b + c + d) 24).2 hs
    omega
  have hf : float32OfUint32 (a + b + c + d) = a + b + c + d := by
    unfold float32OfUint32
    simp only [hb0]
    rw [roundShift_of_dvd _ 0 (by simp)]
    simp
  have hv : averageChannel a b c d = (a + b + c + d) / 1024 := by
    unfold averageChannel uint8OfDiv1024
    rw [hmod, hf]
    exact Nat.mod_eq_of_lt (by omega)
  refine ⟨hv, by rw [hmod, hf]; omega, by rw [hv]; omega, ?_⟩
  rw [hv, Nat.shiftRight_eq_div_pow, Nat.div_div_eq_div_mul]

/-- C2: for four input colours with channel values in `[0, 65535]`, each channel
of the result of `average2x2` is `floor ((v00 + v01 + v10 + v11) / 1024)` of that
channel's four values, the value converted to 8 bits is at most `255` (no
wrap-around), and it equals the truncated mean `floor (sum / 4)` shifted right
by 8 bits. -/
theorem average2x2_truncated_mean (c00 c01 c10 c11 : Color) (h00 : c00.InRange)
    (h01 : c01.InRange) (h10 : c10.InRange) (h11 : c11.InRange) :
    TruncatedMean (average2x2 c00 c01 c10 c11).R c00.r c01.r c10.r c11.r ∧
    TruncatedMean (average2x2 c00 c01 c10 c11).G c00.g c01.g c10.g c11.g ∧
    TruncatedMean (average2x2 c00 c01 c10 c11).B c00.b c01.b c10.b c11.b ∧
    TruncatedMean (average2x2 c00 c01 c10 c11).A c00.a c01.a c10.a c11.a :=
  ⟨averageChannel_eq _ _ _ _ h00.1 h01.1 h10.1 h11.1,
   averageChannel_eq _ _ _ _ h00.2.1 h01.2.1 h10.2.1 h11.2.1,
   averageChannel_eq _ _ _ _ h00.2.2.1 h01.2.2.1 h10.2.2.1 h11.2.2.1,
   averageChannel_eq _ _ _ _ h00.2.2.2 h01.2.2.2 h10.2.2.2 h11.2.2.2⟩

/-- Witness for C2: the colours `(65535, 0, 257, 65535)`, `(65535, 1, 514, 65535)`,
`(65535, 2, 771, 65535)` and `(65535, 1020, 1028, 65535)`. -/
theorem average2x2_truncated_mean_witness :
    TruncatedMean (average2x2 ⟨65535, 0, 257, 65535⟩ ⟨65535, 1, 514, 65535⟩
      ⟨65535, 2, 771, 65535⟩ ⟨65535, 1020, 1028, 65535⟩).R 65535 65535 65535 65535 ∧
    TruncatedMean (average2x2 ⟨65535, 0, 257, 65535⟩ ⟨65535, 1, 514, 65535⟩
      ⟨65535, 2, 771, 65535⟩ ⟨65535, 1020, 1028, 65535⟩).G 0 1 2 1020 ∧
    TruncatedMean (average2x2 ⟨65535, 0, 257, 65535⟩ ⟨65535, 1, 514, 65535⟩
      ⟨65535, 2, 771, 65535⟩ ⟨65535, 1020, 1028, 65535⟩).B 257 514 771 1028 ∧
    TruncatedMean (average2x2 ⟨65535, 0, 257, 65535⟩ ⟨65535, 1, 514, 65535⟩
      ⟨65535, 2, 771, 65535⟩ ⟨65535, 1020, 1028, 65535⟩).A 65535 65535 65535 65535 :=
  average2x2_truncated_mean ⟨65535, 0, 257, 65535⟩ ⟨65535, 1, 514, 65535⟩
    ⟨65535, 2, 771, 65535⟩ ⟨65535, 1020, 1028, 65535⟩
    (by decide) (by decide) (by decide) (by decide)

theorem clamp_bounds (x y w h : Int) (hw : 1 ≤ w) (hh : 1 ≤ h) :
    0 ≤ (clamp x y w h).1 ∧ (clamp x y w h).1 ≤ w - 1 ∧
    0 ≤ (clamp x y w h).2 ∧ (clamp x y w h).2 ≤ h - 1 := by
  unfold clamp
  simp only
  split_ifs <;> omega

/-- C3: for `w ≥ 1` and `h ≥ 1`, `clamp x y w h` lies in `[0, w-1] x [0, h-1]` for
all integers `x`, `y`; so each of the four coordinates `(j, i)`, `(j+1, i)`,
`(j, i+1)`, `(j+1, i+1)` that `resizeImage` samples (see `sampleAt`), for
`0 ≤ j < w` and `0 ≤ i < h`, lies inside `[0, w-1] x [0, h-1]`. -/
theorem clamp_in_bounds (w h : Int) (hw : 1 ≤ w) (hh : 1 ≤ h) :
    (∀ x y : Int, 0 ≤ (clamp x y w h).1 ∧ (clamp x y w h).1 ≤ w - 1 ∧
      0 ≤ (clamp x y w h).2 ∧ (clamp x y w h).2 ≤ h - 1) ∧
    (∀ j i : Int, 0 ≤ j → j < w → 0 ≤ i → i < h →
      ∀ p ∈ [clamp j i w h, clamp (j + 1) i w h, clamp j (i + 1) w h,
        clamp (j + 1) (i + 1) w h],
      0 ≤ p.1 ∧ p.1 ≤ w - 1 ∧ 0 ≤ p.2 ∧ p.2 ≤ h - 1) := by
  refine ⟨fun x y => clamp_bounds x y w h hw hh, fun j i _ _ _ _ p hp => ?_⟩
  simp only [List.mem_cons, List.mem_singleton, List.not_mem_nil, or_false] at hp
  rcases hp with rfl | rfl | rfl | rfl <;> exact clamp_bounds _ _ w h hw hh

/-- Witness for C3: an image of size 4 by 3; the corner `(3, 2)` samples
`(3, 2)` four times. -/
theorem clamp_in_bounds_witness :
    ((∀ x y : Int, 0 ≤ (clamp x y 4 3).1 ∧ (clamp x y 4 3).1 ≤ 4 - 1 ∧
      0 ≤ (clamp x y 4 3).2 ∧ (clamp x y 4 3).2 ≤ 3 - 1) ∧
    (∀ j i : Int, 0 ≤ j → j < 4 → 0 ≤ i → i < 3 →
      ∀ p ∈ [clamp j i 4 3, clamp (j + 1) i 4 3, clamp j (i + 1) 4 3,
        clamp (j + 1) (i + 1) 4 3],
      0 ≤ p.1 ∧ p.1 ≤ 4 - 1 ∧ 0 ≤ p.2 ∧ p.2 ≤ 3 - 1)) ∧
    [clamp 3 2 4 3, clamp (3 + 1) 2 4 3, clamp 3 (2 + 1) 4 3, clamp (3 + 1) (2 + 1) 4 3]
      = [(3, 2), (3, 2), (3, 2), (3, 2)] :=
  ⟨clamp_in_bounds 4 3 (by decide) (by decide), by decide⟩

/-! ## C1: the size of the output -/

theorem Rect_origin (a b : Int) (ha : 0 ≤ a) (hb : 0 ≤ b) : Rect 0 0 a b = ⟨0, 0, a, b⟩ := by
  have h1 : ¬ (0 > a) := by omega
  have h2 : ¬ (0 > b) := by omega
  simp [Rect, h1, h2]

/-- C1, counterexample. First input: a source image of size 10 by 10 and the
`float64` factor nearest to `0.7` (exactly `6305039478318694 / 2 ^ 53`, less than
`2 ^ (-54)` below `0.7`): the exact product `W * f` is just below `7`, so
`floor (W * f) = 6`, but the `float64` product rounds to `7.0` and the output is 7
by 7. Second input: a source image of size 100 by 100 and the `float64` factor
nearest to `0.29`: the output is 28 by 28, although `floor (100 * 0.29) = 29` for
the decimal `0.29`. Whether `f` is read as the `float64` value or as the decimal
it was parsed from, the width is not always `floor (W * f)`. -/
theorem resizeImage_size_counterexample :
    (factor07.InUnitInterval ∧ factor07.IsBinary64 ∧
      factor07.toRat < 7 / 10 ∧ 7 / 10 - factor07.toRat < 1 / 2 ^ 54 ∧
      (resizeImage (solidImage 10 10 ⟨0, 0, 0, 0⟩) factor07).rect = ⟨0, 0, 7, 7⟩ ∧
      exactFloor 10 factor07 = 6) ∧
    (factor029.InUnitInterval ∧ factor029.IsBinary64 ∧
      |factor029.toRat - 29 / 100| < 1 / 2 ^ 55 ∧
      (resizeImage (solidImage 100 100 ⟨0, 0, 0, 0⟩) factor029).rect = ⟨0, 0, 28, 28⟩ ∧
      exactFloor 100 factor029 = 28 ∧
      ⌊(100 : ℚ) * (29 / 100)⌋ = 29) := by
  refine ⟨⟨by decide, by decide, ?_, ?_, ?_, ?_⟩, ⟨by decide, by decide, ?_, ?_, ?_, ?_⟩⟩
  · norm_num [factor07, F64.toRat]
  · norm_num [factor07, F64.toRat]
  · rw [resizeImage_rect]
    decide
  · exact (exactFloor_eq 6305039478318694 53 10).trans (by decide)
  · rw [abs_lt]
    constructor <;> norm_num [factor029, F64.toRat]
  · rw [resizeImage_rect]
    decide
  · exact (exactFloor_eq 5224175567749775 54 100).trans (by decide)
  · norm_num

/-- C1, amended: for a source image of width `W < 2 ^ 53` and height
`H < 2 ^ 53` and a `float64` factor `f` with `0 < f < 1`, `resizeImage` returns an
image with origin `(0, 0)`, width `int(float64(W) * f)` and height
`int(float64(H) * f)`; each of them is `floor (W * f)` (resp. `floor (H * f)`) or
one more, and one more only when the rounded `float64` product is exactly that
integer. The bounds do not depend on the pixel contents. -/
theorem resizeImage_size (img : Image) (f : F64) (hf : f.InUnitInterval)
    (hw : img.Dx < 2 ^ 53) (hh : img.Dy < 2 ^ 53) :
    (resizeImage img f).rect = ⟨0, 0, scaleIndex img.Dx f, scaleIndex img.Dy f⟩ ∧
    exactFloor img.Dx f ≤ scaleIndex img.Dx f ∧
    scaleIndex img.Dx f ≤ exactFloor img.Dx f + 1 ∧
    exactFloor img.Dy f ≤ scaleIndex img.Dy f ∧
    scaleIndex img.Dy f ≤ exactFloor img.Dy f + 1 ∧
    (scaleIndex img.Dx f = exactFloor img.Dx f + 1 →
      (F64.mul (F64.ofInt img.Dx) f).toRat = exactFloor img.Dx f + 1) ∧
    (scaleIndex img.Dy f = exactFloor img.Dy f + 1 →
      (F64.mul (F64.ofInt img.Dy) f).toRat = exactFloor img.Dy f + 1) ∧
    (∀ img' : Image, img'.Dx = img.Dx → img'.Dy = img.Dy →
      (resizeImage img' f).rect = (resizeImage img f).rect) := by
  obtain ⟨mf, K, rfl, hm, hlt⟩ := factor_form f hf.1 hf.2
  have hp : (0 : ℚ) < 2 ^ K := by positivity
  have key : ∀ W : Nat, W < 2 ^ 53 →
      exactFloor W (F64.fin false mf (-(K : Int))) ≤ scaleIndex W (F64.fin false mf (-(K : Int))) ∧
      scaleIndex W (F64.fin false mf (-(K : Int)))
        ≤ exactFloor W (F64.fin false mf (-(K : Int))) + 1 ∧
      (scaleIndex W (F64.fin false mf (-(K : Int)))
          = exactFloor W (F64.fin false mf (-(K : Int))) + 1 →
        (F64.mul (F64.ofInt W) (F64.fin false mf (-(K : Int)))).toRat
          = exactFloor W (F64.fin false mf (-(K : Int))) + 1) := by
    intro W hW
    obtain ⟨h1, h2, h3⟩ := xmap_sandwich mf K W hW hlt
    rw [scaleIndex_eq mf K W hW hlt.le, exactFloor_eq, toRat_mul_ofInt mf K W hW hlt.le]
    refine ⟨by exact_mod_cast h1, by exact_mod_cast h2, fun h => ?_⟩
    have h4 : xmap mf K W = W * mf / 2 ^ K + 1 := by exact_mod_cast h
    rw [h3 h4]
    generalize W * mf / 2 ^ K = F
    push_cast
    field_simp
  obtain ⟨a1, a2, a3⟩ := key img.Dx hw
  obtain ⟨b1, b2, b3⟩ := key img.Dy hh
  have hx0 : 0 ≤ scaleIndex img.Dx (F64.fin false mf (-(K : Int))) := by
    rw [scaleIndex_eq mf K _ hw hlt.le]
    exact Int.natCast_nonneg _
  have hy0 : 0 ≤ scaleIndex img.Dy (F64.fin false mf (-(K : Int))) := by
    rw [scaleIndex_eq mf K _ hh hlt.le]
    exact Int.natCast_nonneg _
  refine ⟨?_, a1, a2, b1, b2, a3, b3, fun img' h1 h2 => ?_⟩
  · rw [resizeImage_rect, Rect_origin _ _ hx0 hy0]
  · rw [resizeImage_rect, resizeImage_rect, h1, h2]

/-- Witness for C1 (amended): a 10 by 7 image and the factor nearest to `0.7`;
the output is 7 by 4, where `floor (10 * f) = 6` and `floor (7 * f) = 4`. -/
theorem resizeImage_size_witness :
    (resizeImage (solidImage 10 7 ⟨0, 0, 0, 0⟩) factor07).rect = ⟨0, 0, 7, 4⟩ ∧
    exactFloor 10 factor07 = 6 ∧ exactFloor 7 factor07 = 4 := by
  have h := resizeImage_size (solidImage 10 7 ⟨0, 0, 0, 0⟩) factor07 (by decide)
    (by decide) (by decide)
  refine ⟨?_, ?_, ?_⟩
  · rw [h.1]
    decide
  · exact (exactFloor_eq 6305039478318694 53 10).trans (by decide)
  · exact (exactFloor_eq 6305039478318694 53 7).trans (by decide)

/-! ## A gap: an output position that no source position maps to -/

theorem xmap_nearOne_low : xmap 9007199170854912 53 536870917 = 536870911 := by decide

theorem xmap_nearOne_high : xmap 9007199170854912 53 536870918 = 536870913 := by decide

theorem scaleIndex_nearOne (j : Nat) (hj : j < 2 ^ 53) :
    scaleIndex (j : Int) factorNearOne = (xmap 9007199170854912 53 j : Int) :=
  scaleIndex_eq 9007199170854912 53 j hj (by decide)

/-- With the factor `1 - 5 * 2 ^ (-29)`, no source column below `2 ^ 29 + 7` maps
to the output column `2 ^ 29`: the columns up to `2 ^ 29 + 5` map to at most
`2 ^ 29 - 1`, the later ones to at least `2 ^ 29 + 1`. -/
theorem wide_column_skipped (j : Nat) (hj : j < 536870919) :
    scaleIndex (j : Int) factorNearOne ≠ 536870912 := by
  rw [scaleIndex_nearOne j (lt_trans hj (by norm_num))]
  rcases Nat.lt_or_ge j 536870918 with h | h
  · have h1 := xmap_mono 9007199170854912 53 (show j ≤ 536870917 by omega)
    rw [xmap_nearOne_low] at h1
    omega
  · have h1 := xmap_mono 9007199170854912 53 h
    rw [xmap_nearOne_high] at h1
    omega

theorem xmap_nearOne_width : xmap 9007199170854912 53 536870919 = 536870913 := by decide

theorem xmap_nearOne_height : xmap 9007199170854912 53 2 = 1 := by decide

theorem wide_rect : (resizeImage wideImage factorNearOne).rect = ⟨0, 0, 536870913, 1⟩ := by
  have hx : scaleIndex (wideImage.Dx : Int) factorNearOne = 536870913 := by
    rw [show wideImage.Dx = 536870919 from rfl, scaleIndex_nearOne _ (by norm_num),
      xmap_nearOne_width]
    rfl
  have hy : scaleIndex (wideImage.Dy : Int) factorNearOne = 1 := by
    rw [show wideImage.Dy = 2 from rfl, scaleIndex_nearOne _ (by norm_num),
      xmap_nearOne_height]
    rfl
  rw [resizeImage_rect, hx, hy, Rect_origin _ _ (by norm_num) (by norm_num)]

theorem wide_pix : (resizeImage wideImage factorNearOne).pix 536870912 0 = ⟨0, 0, 0, 0⟩ :=
  resizeImage_unwritten wideImage factorNearOne 536870912 0
    (Or.inl (fun j hj => wide_column_skipped j hj))

/-! ## Every output pixel of a small image is written, and by which source position -/

theorem RGBAAt_of_contains (p : RGBAImage) (x y : Int) (h : p.rect.Contains x y) :
    p.RGBAAt x y = p.pix x y := by
  unfold RGBAImage.RGBAAt
  rw [if_pos h]

/-- For an image of at most `2 ^ 26` by `2 ^ 26` pixels and a binary64 factor
in `(0, 1)`, every position inside the output bounds is the image of a last
source column `j` and a last source row `i`, and holds the sample taken at
`(j, i)`. -/
theorem resizeImage_pixel (img : Image) (f : F64) (hv : f.IsBinary64) (hf : f.InUnitInterval)
    (hw : img.Dx ≤ 2 ^ 26) (hh : img.Dy ≤ 2 ^ 26) (x y : Int)
    (hin : (resizeImage img f).rect.Contains x y) :
    ∃ j i : Nat, j < img.Dx ∧ i < img.Dy ∧ scaleIndex j f = x ∧ scaleIndex i f = y ∧
      (∀ j', j < j' → j' < img.Dx → scaleIndex j' f ≠ x) ∧
      (∀ i', i < i' → i' < img.Dy → scaleIndex i' f ≠ y) ∧
      (resizeImage img f).RGBAAt x y = sampleAt img j i := by
  obtain ⟨mf, K, rfl, hm, hlt, hmf, hK⟩ := factor_form_binary64 f hv hf.1 hf.2
  have h26 : (2 : Nat) ^ 26 < 2 ^ 53 := by norm_num
  have hsc : ∀ n : Nat, n ≤ 2 ^ 26 →
      scaleIndex (n : Int) (F64.fin false mf (-(K : Int))) = (xmap mf K n : Int) :=
    fun n hn => scaleIndex_eq mf K n (lt_of_le_of_lt hn h26) hlt.le
  have hrect := resizeImage_rect img (F64.fin false mf (-(K : Int)))
  rw [hsc _ hw, hsc _ hh, Rect_origin _ _ (Int.natCast_nonneg _) (Int.natCast_nonneg _)]
    at hrect
  have hin' := hin
  rw [hrect] at hin'
  obtain ⟨hx0, hx1, hy0, hy1⟩ := hin'
  simp only at hx0 hx1 hy0 hy1
  obtain ⟨xn, rfl⟩ := Int.eq_ofNat_of_zero_le hx0
  obtain ⟨yn, rfl⟩ := Int.eq_ofNat_of_zero_le hy0
  have hx2 : xn < xmap mf K img.Dx := by exact_mod_cast hx1
  have hy2 : yn < xmap mf K img.Dy := by exact_mod_cast hy1
  obtain ⟨j, hj, hjx, hjl⟩ := exists_last (fun j => xmap mf K j = xn) img.Dx
    (xmap_surj mf K hm hmf hK hlt img.Dx hw xn hx2)
  obtain ⟨i, hi, hiy, hil⟩ := exists_last (fun i => xmap mf K i = yn) img.Dy
    (xmap_surj mf K hm hmf hK hlt img.Dy hh yn hy2)
  have hjs : scaleIndex (j : Int) (F64.fin false mf (-(K : Int))) = (xn : Int) := by
    rw [hsc j (by omega), hjx]
  have his : scaleIndex (i : Int) (F64.fin false mf (-(K : Int))) = (yn : Int) := by
    rw [hsc i (by omega), hiy]
  have hjl' : ∀ j', j < j' → j' < img.Dx →
      scaleIndex (j' : Int) (F64.fin false mf (-(K : Int))) ≠ (xn : Int) := by
    intro j' h1 h2 hc
    rw [hsc j' (by omega)] at hc
    exact hjl j' h1 h2 (by exact_mod_cast hc)
  have hil' : ∀ i', i < i' → i' < img.Dy →
      scaleIndex (i' : Int) (F64.fin false mf (-(K : Int))) ≠ (yn : Int) := by
    intro i' h1 h2 hc
    rw [hsc i' (by omega)] at hc
    exact hil i' h1 h2 (by exact_mod_cast hc)
  refine ⟨j, i, hj, hi, hjs, his, hjl', hil', ?_⟩
  rw [RGBAAt_of_contains _ _ _ hin]
  have hlast := resizeImage_last img (F64.fin false mf (-(K : Int))) i j hi hj
    (by rw [hjs]; exact hjl') (by rw [his]; exact hil')
    (by rw [hjs, his, ← resizeImage_rect]; exact hin)
  rw [hjs, his] at hlast
  exact hlast

theorem averageChannel_solid (r : Nat) (hr : r ≤ 255) :
    averageChannel (257 * r) (257 * r) (257 * r) (257 * r) = r := by
  have h := (averageChannel_eq (257 * r) (257 * r) (257 * r) (257 * r)
    (by omega) (by omega) (by omega) (by omega)).1
  omega

theorem sampleAt_solid (img : Image) (c : Color) (hw : 1 ≤ img.Dx) (hh : 1 ≤ img.Dy)
    (hsolid : ∀ x y : Int, 0 ≤ x → x < img.Dx → 0 ≤ y → y < img.Dy → img.At x y = c)
    (j i : Int) : sampleAt img j i = average2x2 c c c c := by
  have hW : (1 : Int) ≤ (img.Dx : Int) := by exact_mod_cast hw
  have hH : (1 : Int) ≤ (img.Dy : Int) := by exact_mod_cast hh
  have key : ∀ u v : Int, img.At (clamp u v img.Dx img.Dy).1 (clamp u v img.Dx img.Dy).2 = c := by
    intro u v
    obtain ⟨h1, h2, h3, h4⟩ := clamp_bounds u v img.Dx img.Dy hW hH
    exact hsolid _ _ h1 (by omega) h3 (by omega)
  unfold sampleAt
  simp only [key]

/-! ## C9, C4 and C10: gaps, solid images, last write wins -/

theorem sampleAt_wide (j i : Int) : sampleAt wideImage j i = ⟨255, 255, 255, 255⟩ := by
  have h : sampleAt wideImage j i = average2x2 ⟨65535, 65535, 65535, 65535⟩
      ⟨65535, 65535, 65535, 65535⟩ ⟨65535, 65535, 65535, 65535⟩ ⟨65535, 65535, 65535, 65535⟩ := rfl
  rw [h]
  decide

theorem wide_contains : (resizeImage wideImage factorNearOne).rect.Contains 536870912 0 := by
  rw [wide_rect]
  decide

theorem wide_RGBAAt : (resizeImage wideImage factorNearOne).RGBAAt 536870912 0 = ⟨0, 0, 0, 0⟩ := by
  rw [RGBAAt_of_contains _ _ _ wide_contains, wide_pix]

theorem wide_exactFloor :
    exactFloor wideImage.Dx factorNearOne = 536870913 ∧
    exactFloor wideImage.Dy factorNearOne = 1 :=
  ⟨(exactFloor_eq 9007199170854912 53 536870919).trans (by decide),
   (exactFloor_eq 9007199170854912 53 2).trans (by decide)⟩

/-- C9: there are a source image and a `float64` factor `f` with `0 < f < 1` for
which the forward-mapping loop of `resizeImage` leaves a gap. For the solid
white image of size `(2 ^ 29 + 7)` by `2` and `f = 1 - 5 * 2 ^ (-29)`, the position
`(2 ^ 29, 0)` lies inside the output bounds (and below `floor (W * f)` and
`floor (H * f)`), no source position maps to it, and it keeps the zero colour
although every sample the loop stores is white. -/
theorem resizeImage_leaves_gap :
    ∃ (img : Image) (f : F64) (x y : Int),
      f.IsBinary64 ∧ f.InUnitInterval ∧
      0 ≤ x ∧ x < exactFloor img.Dx f ∧ 0 ≤ y ∧ y < exactFloor img.Dy f ∧
      (resizeImage img f).rect.Contains x y ∧
      (∀ i j : Nat, i < img.Dy → j < img.Dx →
        ¬ (scaleIndex j f = x ∧ scaleIndex i f = y)) ∧
      (∀ i j : Int, sampleAt img j i = ⟨255, 255, 255, 255⟩) ∧
      (resizeImage img f).RGBAAt x y = ⟨0, 0, 0, 0⟩ := by
  refine ⟨wideImage, factorNearOne, 536870912, 0, by decide, by decide, by norm_num, ?_,
    le_refl 0, ?_, wide_contains, ?_, fun i j => sampleAt_wide j i, wide_RGBAAt⟩
  · rw [wide_exactFloor.1]
    norm_num
  · rw [wide_exactFloor.2]
    norm_num
  · intro i j _ hj hc
    exact wide_column_skipped j hj hc.1

/-- C4, counterexample. First input: the solid white image of size
`(2 ^ 29 + 7)` by `2` with bounds starting at `(0, 0)` (16-bit channels `257 * 255`)
and the factor `1 - 5 * 2 ^ (-29)`: the pixel at `(2 ^ 29, 0)` lies inside the bounds
of the output and is `(0, 0, 0, 0)`, not `(255, 255, 255, 255)`. Second input: the
solid red 2 by 2 image with bounds `(2, 2)-(4, 4)` and the factor `0.5`: the loop
reads the coordinates `[0, 1] x [0, 1]`, which lie outside the image, so the pixel
`(0, 0)` of the 1 by 1 output is `(0, 0, 0, 0)`, not `(255, 0, 0, 255)`. -/
theorem resizeImage_solid_counterexample :
    (factorNearOne.IsBinary64 ∧ factorNearOne.InUnitInterval ∧
      wideImage.minX = 0 ∧ wideImage.minY = 0 ∧
      1 ≤ wideImage.Dx ∧ 1 ≤ wideImage.Dy ∧
      wideImage.Solid ⟨257 * 255, 257 * 255, 257 * 255, 257 * 255⟩ ∧
      (resizeImage wideImage factorNearOne).rect.Contains 536870912 0 ∧
      (resizeImage wideImage factorNearOne).RGBAAt 536870912 0 ≠ ⟨255, 255, 255, 255⟩) ∧
    (factorHalf.IsBinary64 ∧ factorHalf.InUnitInterval ∧
      1 ≤ offsetRedImage.Dx ∧ 1 ≤ offsetRedImage.Dy ∧
      offsetRedImage.Solid ⟨257 * 255, 257 * 0, 257 * 0, 257 * 255⟩ ∧
      (resizeImage offsetRedImage factorHalf).rect = ⟨0, 0, 1, 1⟩ ∧
      (resizeImage offsetRedImage factorHalf).rect.Contains 0 0 ∧
      (resizeImage offsetRedImage factorHalf).RGBAAt 0 0 = ⟨0, 0, 0, 0⟩ ∧
      (resizeImage offsetRedImage factorHalf).RGBAAt 0 0 ≠ ⟨255, 0, 0, 255⟩) := by
  have hrect : (resizeImage offsetRedImage factorHalf).rect = ⟨0, 0, 1, 1⟩ := by
    rw [resizeImage_rect]
    decide
  have hpix : (resizeImage offsetRedImage factorHalf).RGBAAt 0 0 = ⟨0, 0, 0, 0⟩ := by
    decide
  refine ⟨⟨by decide, by decide, rfl, rfl, by decide, by decide, fun _ _ _ _ _ _ => rfl,
    wide_contains, ?_⟩, ⟨by decide, by decide, by decide, by decide, ?_, hrect, ?_, hpix, ?_⟩⟩
  · rw [wide_RGBAAt]
    decide
  · intro x y h1 h2 h3 h4
    have a1 : (2 : Int) ≤ x := h1
    have a2 : x < 2 + ((2 : Nat) : Int) := h2
    have a3 : (2 : Int) ≤ y := h3
    have a4 : y < 2 + ((2 : Nat) : Int) := h4
    have hc : 2 ≤ x ∧ x < 4 ∧ 2 ≤ y ∧ y < 4 := ⟨a1, by omega, a3, by omega⟩
    show (if 2 ≤ x ∧ x < 4 ∧ 2 ≤ y ∧ y < 4 then (⟨65535, 0, 0, 65535⟩ : Color)
      else ⟨0, 0, 0, 0⟩) = ⟨257 * 255, 257 * 0, 257 * 0, 257 * 255⟩
    rw [if_pos hc]
  · rw [hrect]
    decide
  · rw [hpix]
    decide

/-- C4, amended: for a source image whose bounds start at `(0, 0)`, of size `W` by
`H` with `1 ≤ W, H ≤ 2 ^ 26`, in which every pixel has the 16-bit colour
`(257 r, 257 g, 257 b, 257 a)` for 8-bit values `r g b a`, and for a binary64 factor
`f` with `0 < f < 1`, every pixel inside the bounds of the output of `resizeImage`
is `(r, g, b, a)`. (Nothing is said of an image whose bounds start elsewhere.) -/
theorem resizeImage_solid (img : Image) (f : F64) (r g b a : Nat)
    (hr : r ≤ 255) (hg : g ≤ 255) (hb : b ≤ 255) (ha : a ≤ 255)
    (hv : f.IsBinary64) (hf : f.InUnitInterval)
    (hx0 : img.minX = 0) (hy0 : img.minY = 0)
    (hw1 : 1 ≤ img.Dx) (hw : img.Dx ≤ 2 ^ 26) (hh1 : 1 ≤ img.Dy) (hh : img.Dy ≤ 2 ^ 26)
    (hsolid : img.Solid ⟨257 * r, 257 * g, 257 * b, 257 * a⟩) :
    ∀ x y : Int, (resizeImage img f).rect.Contains x y →
      (resizeImage img f).RGBAAt x y = ⟨r, g, b, a⟩ := by
  intro x y hin
  have hs : ∀ x y : Int, 0 ≤ x → x < img.Dx → 0 ≤ y → y < img.Dy →
      img.At x y = ⟨257 * r, 257 * g, 257 * b, 257 * a⟩ := by
    intro u v h1 h2 h3 h4
    exact hsolid u v (by rw [hx0]; exact h1) (by rw [hx0]; omega) (by rw [hy0]; exact h3)
      (by rw [hy0]; omega)
  obtain ⟨j, i, _, _, _, _, _, _, hpix⟩ := resizeImage_pixel img f hv hf hw hh x y hin
  rw [hpix, sampleAt_solid img _ hw1 hh1 hs]
  simp only [average2x2, averageChannel_solid r hr, averageChannel_solid g hg,
    averageChannel_solid b hb, averageChannel_solid a ha]

/-- Witness for C4 (amended): the 4 by 4 solid red image with bounds starting at
`(0, 0)` at factor `0.5` gives a 2 by 2 image whose four pixels are
`(255, 0, 0, 255)`. -/
theorem resizeImage_solid_witness :
    redImage.minX = 0 ∧ redImage.minY = 0 ∧
    redImage.Solid ⟨257 * 255, 257 * 0, 257 * 0, 257 * 255⟩ ∧
    (resizeImage redImage factorHalf).rect = ⟨0, 0, 2, 2⟩ ∧
    (resizeImage redImage factorHalf).RGBAAt 0 0 = ⟨255, 0, 0, 255⟩ ∧
    (resizeImage redImage factorHalf).RGBAAt 1 0 = ⟨255, 0, 0, 255⟩ ∧
    (resizeImage redImage factorHalf).RGBAAt 0 1 = ⟨255, 0, 0, 255⟩ ∧
    (resizeImage redImage factorHalf).RGBAAt 1 1 = ⟨255, 0, 0, 255⟩ := by
  have hrect : (resizeImage redImage factorHalf).rect = ⟨0, 0, 2, 2⟩ := by
    rw [resizeImage_rect]
    decide
  have h := resizeImage_solid redImage factorHalf 255 0 0 255 (by decide) (by decide)
    (by decide) (by decide) (by decide) (by decide) rfl rfl (by decide) (by decide)
    (by decide) (by decide) (fun _ _ _ _ _ _ => rfl)
  exact ⟨rfl, rfl, fun _ _ _ _ _ _ => rfl, hrect, h 0 0 (by rw [hrect]; decide),
    h 1 0 (by rw [hrect]; decide),
    h 0 1 (by rw [hrect]; decide), h 1 1 (by rw [hrect]; decide)⟩

/-- C10, counterexample: the solid white image of size `(2 ^ 29 + 7)` by `2` and
the factor `1 - 5 * 2 ^ (-29)`. The position `(2 ^ 29, 0)` lies inside the output
bounds (and below the exact `floor (W * f)`, `floor (H * f)`), yet no source column
`j < W` has `int(float64(j) * f) = 2 ^ 29`, and the final pixel there differs
from the 2x2 average at every source position. -/
theorem last_write_counterexample :
    factorNearOne.IsBinary64 ∧ factorNearOne.InUnitInterval ∧
    1 ≤ wideImage.Dx ∧ 1 ≤ wideImage.Dy ∧
    (0 : Int) ≤ 536870912 ∧ 536870912 < scaleIndex wideImage.Dx factorNearOne ∧
    536870912 < exactFloor wideImage.Dx factorNearOne ∧
    (0 : Int) ≤ 0 ∧ 0 < scaleIndex wideImage.Dy factorNearOne ∧
    0 < exactFloor wideImage.Dy factorNearOne ∧
    (∀ j : Nat, j < wideImage.Dx → scaleIndex j factorNearOne ≠ 536870912) ∧
    (∀ j i : Int, (resizeImage wideImage factorNearOne).RGBAAt 536870912 0
      ≠ sampleAt wideImage j i) := by
  have hc := wide_contains
  rw [resizeImage_rect] at hc
  have hr := wide_rect
  rw [resizeImage_rect] at hr
  have hx : scaleIndex wideImage.Dx factorNearOne = 536870913 := by
    have := congrArg Rectangle.maxX hr
    simp only [Rect] at this
    split_ifs at this <;> omega
  have hy : scaleIndex wideImage.Dy factorNearOne = 1 := by
    have := congrArg Rectangle.maxY hr
    simp only [Rect] at this
    split_ifs at this <;> omega
  refine ⟨by decide, by decide, by decide, by decide, by norm_num, by rw [hx]; norm_num,
    by rw [wide_exactFloor.1]; norm_num, le_refl 0, by rw [hy]; norm_num,
    by rw [wide_exactFloor.2]; norm_num, fun j hj => wide_column_skipped j hj, fun j i => ?_⟩
  rw [wide_RGBAAt, sampleAt_wide]
  decide

/-- C10, amended: last write wins in row-major order. For a source image of size
`W` by `H` with `W, H ≤ 2 ^ 26`, a binary64 factor `f` with `0 < f < 1` and an output
position `(x, y)` with `0 ≤ x < int(float64(W) * f)` and
`0 ≤ y < int(float64(H) * f)`, there are a largest `j < W` with
`int(float64(j) * f) = x` and a largest `i < H` with `int(float64(i) * f) = y`, and
the final pixel at `(x, y)` is `average2x2` of the source pixels at the clamped
coordinates `(j, i)`, `(j+1, i)`, `(j, i+1)`, `(j+1, i+1)`. -/
theorem resizeImage_last_write_wins (img : Image) (f : F64) (hv : f.IsBinary64)
    (hf : f.InUnitInterval) (hw : img.Dx ≤ 2 ^ 26) (hh : img.Dy ≤ 2 ^ 26) (x y : Int)
    (hx0 : 0 ≤ x) (hx : x < scaleIndex img.Dx f) (hy0 : 0 ≤ y) (hy : y < scaleIndex img.Dy f) :
    ∃ j i : Nat, j < img.Dx ∧ i < img.Dy ∧ scaleIndex j f = x ∧ scaleIndex i f = y ∧
      (∀ j' : Nat, j < j' → j' < img.Dx → scaleIndex j' f ≠ x) ∧
      (∀ i' : Nat, i < i' → i' < img.Dy → scaleIndex i' f ≠ y) ∧
      (resizeImage img f).RGBAAt x y = average2x2
        (img.At (clamp j i img.Dx img.Dy).1 (clamp j i img.Dx img.Dy).2)
        (img.At (clamp (j + 1) i img.Dx img.Dy).1 (clamp (j + 1) i img.Dx img.Dy).2)
        (img.At (clamp j (i + 1) img.Dx img.Dy).1 (clamp j (i + 1) img.Dx img.Dy).2)
        (img.At (clamp (j + 1) (i + 1) img.Dx img.Dy).1
          (clamp (j + 1) (i + 1) img.Dx img.Dy).2) := by
  have hin : (resizeImage img f).rect.Contains x y := by
    rw [resizeImage_rect, Rect_origin _ _ (by omega) (by omega)]
    exact ⟨hx0, hx, hy0, hy⟩
  exact resizeImage_pixel img f hv hf hw hh x y hin

/-- Witness for C10 (amended): the 4 by 4 gradient image at factor `0.5` and the
output position `(1, 1)`. -/
theorem resizeImage_last_write_wins_witness :
    ∃ j i : Nat, j < gradientImage.Dx ∧ i < gradientImage.Dy ∧
      scaleIndex j factorHalf = 1 ∧ scaleIndex i factorHalf = 1 ∧
      (∀ j' : Nat, j < j' → j' < gradientImage.Dx → scaleIndex j' factorHalf ≠ 1) ∧
      (∀ i' : Nat, i < i' → i' < gradientImage.Dy → scaleIndex i' factorHalf ≠ 1) ∧
      (resizeImage gradientImage factorHalf).RGBAAt 1 1 = average2x2
        (gradientImage.At (clamp j i gradientImage.Dx gradientImage.Dy).1
          (clamp j i gradientImage.Dx gradientImage.Dy).2)
        (gradientImage.At (clamp (j + 1) i gradientImage.Dx gradientImage.Dy).1
          (clamp (j + 1) i gradientImage.Dx gradientImage.Dy).2)
        (gradientImage.At (clamp j (i + 1) gradientImage.Dx gradientImage.Dy).1
          (clamp j (i + 1) gradientImage.Dx gradientImage.Dy).2)
        (gradientImage.At (clamp (j + 1) (i + 1) gradientImage.Dx gradientImage.Dy).1
          (clamp (j + 1) (i + 1) gradientImage.Dx gradientImage.Dy).2) :=
  resizeImage_last_write_wins gradientImage factorHalf (by decide) (by decide) (by decide)
    (by decide) 1 1 (by decide) (by decide) (by decide) (by decide)

/-! ## C5 and C6: file names -/

theorem extScan_clean (l pre s2 : GoString) (hl : ∀ d ∈ l, d ≠ 46 ∧ d ≠ 47) :
    extScan (l ++ 46 :: pre) s2 = 46 :: (l.reverse ++ s2) := by
  induction l generalizing s2 with
  | nil => simp [extScan]
  | cons d ds ih =>
    have h1 := (hl d (List.mem_cons_self d ds)).1
    have h2 := (hl d (List.mem_cons_self d ds)).2
    rw [List.cons_append]
    simp only [extScan, h1, h2, if_false]
    rw [ih _ (fun e he => hl e (List.mem_cons_of_mem d he))]
    simp

/-- The extension of a name that ends in a dot followed by bytes free of dots
and separators is that ending. -/
theorem filepathExt_dot (pre x : GoString) (hx : ∀ c ∈ x, c ≠ 46 ∧ c ≠ 47) :
    filepathExt (pre ++ 46 :: x) = 46 :: x := by
  unfold filepathExt
  rw [List.reverse_append, List.reverse_cons, List.append_assoc]
  have := extScan_clean x.reverse pre.reverse [] (fun d hd => hx d (List.mem_reverse.1 hd))
  simpa using this

theorem extScan_suffix (rev suf : GoString) : extScan rev suf <:+ rev.reverse ++ suf := by
  induction rev generalizing suf with
  | nil => simp [extScan]
  | cons c rest ih =>
    simp only [extScan]
    split_ifs with h1 h2
    · exact List.nil_suffix
    · rw [List.reverse_cons, List.append_assoc]
      exact List.suffix_append _ _
    · have := ih (c :: suf)
      rwa [List.reverse_cons, List.append_assoc]

theorem filepathExt_suffix (s : GoString) : filepathExt s <:+ s := by
  have := extScan_suffix s.reverse []
  simpa [filepathExt] using this

theorem possibleExts_form (e : GoString) (he : e ∈ possibleExts) :
    ∃ x : GoString, e = 46 :: x ∧ ∀ c ∈ x, c ≠ 46 ∧ c ≠ 47 := by
  simp only [possibleExts, List.mem_cons, List.mem_singleton, List.not_mem_nil, or_false] at he
  rcases he with rfl | rfl | rfl | rfl
  · exact ⟨[106, 112, 103], by decide, by decide⟩
  · exact ⟨[106, 112, 101, 103], by decide, by decide⟩
  · exact ⟨[112, 110, 103], by decide, by decide⟩
  · exact ⟨[103, 105, 102], by decide, by decide⟩

theorem eligible_true (toLower : GoString → GoString) (f : GoString)
    (h : eligible toLower f = some true) :
    ∃ name : GoString, splitName toLower f = some (name, toLower (filepathExt f)) ∧
      name = f.take (f.length - (toLower (filepathExt f)).length) ∧
      ¬ resizedMarker <:+: name ∧ toLower (filepathExt f) ∈ possibleExts := by
  unfold eligible splitName at h
  unfold splitName
  simp only at h ⊢
  split_ifs at h ⊢ with hlen
  · simp only [Option.map_some', Option.some.injEq, Bool.and_eq_true, decide_eq_true_eq] at h
    exact ⟨_, rfl, rfl, h.1, h.2⟩
  · simp at h

/-- What a worker writes for an eligible name is not eligible. -/
theorem output_not_eligible (toLower : GoString → GoString)
    (hfix : ∀ e ∈ possibleExts, toLower e = e) (f : GoString)
    (h : eligible toLower f = some true) :
    ∃ out : GoString, outputName toLower f = some out ∧ eligible toLower out = some false := by
  obtain ⟨name, hsplit, _, _, hext⟩ := eligible_true toLower f h
  obtain ⟨x, hx, hclean⟩ := possibleExts_form _ hext
  refine ⟨name ++ resizedMarker ++ toLower (filepathExt f), by simp [outputName, hsplit], ?_⟩
  have hE : filepathExt (name ++ resizedMarker ++ toLower (filepathExt f))
      = toLower (filepathExt f) := by
    rw [hx]
    exact filepathExt_dot _ x hclean
  have hL : toLower (toLower (filepathExt f)) = toLower (filepathExt f) := hfix _ hext
  have hsplit2 : splitName toLower (name ++ resizedMarker ++ toLower (filepathExt f))
      = some (name ++ resizedMarker, toLower (filepathExt f)) := by
    unfold splitName
    simp only [hE, hL]
    rw [if_pos (by simp only [List.length_append]; omega)]
    have hlen : (name ++ resizedMarker ++ toLower (filepathExt f)).length
        - (toLower (filepathExt f)).length = (name ++ resizedMarker).length := by
      simp only [List.length_append]
      omega
    rw [hlen, List.take_left]
  have hin : resizedMarker <:+: name ++ resizedMarker :=
    (List.suffix_append name resizedMarker).isInfix
  unfold eligible
  rw [hsplit2]
  simp [hin]

theorem imageFiles_eligible (toLower : GoString → GoString) (files : List GoString) :
    ∀ jobs, imageFiles toLower files = some jobs → ∀ j ∈ jobs, eligible toLower j = some true := by
  induction files with
  | nil =>
    intro jobs h j hj
    simp [imageFiles] at h
    subst h
    simp at hj
  | cons f fs ih =>
    intro jobs h j hj
    unfold imageFiles at h
    cases he : eligible toLower f with
    | none => simp [he] at h
    | some e =>
      simp only [he] at h
      cases hr : imageFiles toLower fs with
      | none => simp [hr] at h
      | some rest =>
        simp only [hr, Option.map_some', Option.some.injEq] at h
        subst h
        cases e with
        | false => exact ih rest hr j (by simpa using hj)
        | true =>
          simp only [if_true, List.mem_cons] at hj
          rcases hj with rfl | hj
          · exact he
          · exact ih rest hr j hj

/-- C5: re-running is idempotent at the enumeration level. `toLower` stands for
`strings.ToLower`; it leaves the four lower-case extensions unchanged and does
not lengthen a string it maps to one of them. For every file name the task
enumerator accepts, the output name the worker derives exists and is rejected by
the enumerator, so no listing of a later run yields a job for it; a file name
whose base name (as the program computes it, or as `filepath.Ext` splits it)
contains `"_resized"` is never accepted. -/
theorem rerun_idempotent (toLower : GoString → GoString)
    (hfix : ∀ e ∈ possibleExts, toLower e = e)
    (hlen : ∀ s, toLower s ∈ possibleExts → (toLower s).length ≤ s.length) :
    (∀ f, eligible toLower f = some true →
      ∃ out, outputName toLower f = some out ∧ eligible toLower out = some false ∧
        ∀ files jobs, imageFiles toLower files = some jobs → out ∉ jobs) ∧
    (∀ f name ext, splitName toLower f = some (name, ext) → resizedMarker <:+: name →
      eligible toLower f = some false) ∧
    (∀ f, resizedMarker <:+: f.take (f.length - (filepathExt f).length) →
      eligible toLower f ≠ some true) := by
  refine ⟨fun f h => ?_, fun f name ext hs hm => ?_, fun f hm hc => ?_⟩
  · obtain ⟨out, h1, h2⟩ := output_not_eligible toLower hfix f h
    refine ⟨out, h1, h2, fun files jobs hj hmem => ?_⟩
    have := imageFiles_eligible toLower files jobs hj out hmem
    rw [h2] at this
    simp at this
  · unfold eligible
    rw [hs]
    simp [hm]
  · obtain ⟨name, _, hname, hno, hext⟩ := eligible_true toLower f hc
    have hle := hlen _ hext
    apply hno
    rw [hname]
    have hpre : f.take (f.length - (filepathExt f).length)
        <+: f.take (f.length - (toLower (filepathExt f)).length) :=
      List.take_prefix_take_left f (by omega)
    exact hm.trans hpre.isInfix

theorem toLowerASCII_fix : ∀ e ∈ possibleExts, toLowerASCII e = e := by decide

/-- Witness for C5: `a.png` is accepted and its output `a_resized.png` is not;
`c_resized.gif` is rejected. -/
theorem rerun_idempotent_witness :
    eligible toLowerASCII (ascii "a.png") = some true ∧
    (∃ out, outputName toLowerASCII (ascii "a.png") = some out ∧
      eligible toLowerASCII out = some false ∧
      ∀ files jobs, imageFiles toLowerASCII files = some jobs → out ∉ jobs) ∧
    outputName toLowerASCII (ascii "a.png") = some (ascii "a_resized.png") ∧
    eligible toLowerASCII (ascii "c_resized.gif") = some false :=
  ⟨by decide,
   (rerun_idempotent toLowerASCII toLowerASCII_fix
      (fun s _ => by simp [toLowerASCII])).1 (ascii "a.png") (by decide),
   by decide,
   (rerun_idempotent toLowerASCII toLowerASCII_fix
      (fun s _ => by simp [toLowerASCII])).2.1 (ascii "c_resized.gif") (ascii "c_resized")
      (ascii ".gif") (by decide) (by decide)⟩

/-- C6, counterexample: for the eligible file name `A.PNG`, whose extension is
`.PNG`, the worker writes `A_resized.png`, not `A_resized.PNG`. -/
theorem output_name_counterexample :
    eligible toLowerASCII (ascii "A.PNG") = some true ∧
    filepathExt (ascii "A.PNG") = ascii ".PNG" ∧
    ascii "A.PNG" = ascii "A" ++ ascii ".PNG" ∧
    outputName toLowerASCII (ascii "A.PNG") = some (ascii "A_resized.png") ∧
    ascii "A_resized.png" ≠ ascii "A" ++ resizedMarker ++ ascii ".PNG" := by
  decide

/-- C6, amended: `toLower` stands for `strings.ToLower`. For every eligible file
name `name + ext`, where `ext` is the extension as `filepath.Ext` returns it and
lower-casing does not change its length in bytes, the output file name is
`name + "_resized" + toLower ext`: the base name is only suffixed with the marker
and the extension is lower-cased, so it is preserved exactly when it is already
lower case. -/
theorem output_name (toLower : GoString → GoString) (f name ext : GoString)
    (hf : f = name ++ ext) (hext : ext = filepathExt f)
    (hel : eligible toLower f = some true)
    (hlen : (toLower ext).length = ext.length) :
    outputName toLower f = some (name ++ resizedMarker ++ toLower ext) ∧
    (toLower ext = ext → outputName toLower f = some (name ++ resizedMarker ++ ext)) := by
  obtain ⟨nm, hsplit, hname, _, _⟩ := eligible_true toLower f hel
  have hnm : nm = name := by
    rw [hname, ← hext, hlen]
    conv_lhs => rw [hf]
    have : (name ++ ext).length - ext.length = name.length := by simp
    rw [hf] at hext
    rw [this, List.take_left]
  have h1 : outputName toLower f = some (name ++ resizedMarker ++ toLower ext) := by
    unfold outputName
    rw [hsplit, ← hext, hnm]
    rfl
  exact ⟨h1, fun h => by rw [h1, h]⟩

/-- Witness for C6 (amended): `A.PNG` gives `A_resized.png`. -/
theorem output_name_witness :
    outputName toLowerASCII (ascii "A.PNG")
      = some (ascii "A" ++ resizedMarker ++ toLowerASCII (ascii ".PNG")) ∧
    toLowerASCII (ascii ".PNG") = ascii ".png" :=
  ⟨(output_name toLowerASCII (ascii "A.PNG") (ascii "A") (ascii ".PNG") (by decide)
      (by decide) (by decide) (by decide)).1, by decide⟩

/-! ## C7: the argument check of `main` -/

/-- For a factor that is a number, the guard of `main` is false exactly when the
factor lies strictly between `0.0` and `1.0`. -/
theorem guard_false_iff (f : F64) (hn : f ≠ F64.nan) :
    (F64.le f F64.zero || F64.ge f F64.one) = false ↔ f.InUnitInterval := by
  cases f with
  | nan => exact absurd rfl hn
  | inf neg => cases neg <;> simp [F64.le, F64.ge, F64.lt, F64.zero, F64.one, F64.InUnitInterval]
  | fin neg m e =>
    simp only [F64.le, F64.ge, F64.lt, F64.zero, F64.one, F64.InUnitInterval, Bool.or_eq_false_iff,
      decide_eq_false_iff_not, decide_eq_true_eq, not_le, min_comm (0 : Int) e]

/-- C7, counterexample. First input: the command line `images_resizer -h -h`
has two arguments besides the program name and leaves the factor at its default
`0.5`, yet `flag.Parse` prints the usage text and exits, so nothing is processed.
Second input: with `images_resizer -f NaN -d .` the factor is not-a-number, which
is not between `0` and `1`, yet both comparisons of the guard are false and
`workersPoolResizeImages` is called. -/
theorem main_guard_counterexample :
    ((ascii "images_resizer" :: ascii "-h" :: ascii "-h" :: []).length ≥ 3 ∧
      factorHalf.InUnitInterval ∧
      ImagesResizer.main (ascii "images_resizer" :: ascii "-h" :: ascii "-h" :: [])
        ⟨ascii ".", factorHalf, false⟩ = Outcome.usageExit) ∧
    (¬ F64.nan.InUnitInterval ∧
      ImagesResizer.main
        (ascii "images_resizer" :: ascii "-f" :: ascii "NaN" :: ascii "-d" :: ascii "." :: [])
        ⟨ascii ".", F64.nan, true⟩ = Outcome.processed (ascii ".") F64.nan) := by
  decide

/-- C7, amended: when `flag.Parse` returns (no `-h`, no malformed flag) and the
factor is a number, `main` calls `workersPoolResizeImages` (with the parsed
directory and factor) if and only if at least two command-line arguments were
supplied besides the program name and `0 < f < 1`; and for every `f ≤ 0.0` or
`f ≥ 1.0` it prints the usage text and exits without calling it. -/
theorem main_guard (osArgs : List GoString) (flags : Flags) (hp : flags.parsed = true)
    (hn : flags.scalingFactor ≠ F64.nan) :
    (ImagesResizer.main osArgs flags
        = Outcome.processed flags.dirWithImages flags.scalingFactor
      ↔ 3 ≤ osArgs.length ∧ flags.scalingFactor.InUnitInterval) ∧
    (ImagesResizer.main osArgs flags ≠ Outcome.usageExit
      ↔ 3 ≤ osArgs.length ∧ flags.scalingFactor.InUnitInterval) ∧
    (F64.le flags.scalingFactor F64.zero = true ∨ F64.ge flags.scalingFactor F64.one = true →
      ImagesResizer.main osArgs flags = Outcome.usageExit) := by
  have hg := guard_false_iff flags.scalingFactor hn
  have hmain : ImagesResizer.main osArgs flags =
      if osArgs.length < 3 ∨
          (F64.le flags.scalingFactor F64.zero || F64.ge flags.scalingFactor F64.one) = true
      then Outcome.usageExit
      else Outcome.processed flags.dirWithImages flags.scalingFactor := by
    unfold ImagesResizer.main
    simp [hp]
  by_cases hlen : osArgs.length < 3
  · rw [hmain, if_pos (Or.inl hlen)]
    refine ⟨⟨fun h => Outcome.noConfusion h, fun h => by omega⟩,
      ⟨fun h => absurd rfl h, fun h => by omega⟩, fun _ => rfl⟩
  · cases hb : (F64.le flags.scalingFactor F64.zero || F64.ge flags.scalingFactor F64.one) with
    | false =>
      have hcond : ¬ (osArgs.length < 3 ∨ false = true) := by simp [hlen]
      rw [hb] at hmain
      rw [hmain, if_neg hcond]
      refine ⟨⟨fun _ => ⟨by omega, hg.1 hb⟩, fun _ => rfl⟩,
        ⟨fun _ => ⟨by omega, hg.1 hb⟩, fun _ h => Outcome.noConfusion h⟩, fun h => ?_⟩
      rw [Bool.or_eq_false_iff] at hb
      rcases h with h | h
      · rw [hb.1] at h
        exact Bool.noConfusion h
      · rw [hb.2] at h
        exact Bool.noConfusion h
    | true =>
      rw [hb] at hmain
      rw [hmain, if_pos (Or.inr rfl)]
      have hno : ¬ flags.scalingFactor.InUnitInterval := fun h => by
        have := hg.2 h
        rw [hb] at this
        exact Bool.noConfusion this
      refine ⟨⟨fun h => Outcome.noConfusion h, fun h => absurd h.2 hno⟩,
        ⟨fun h => absurd rfl h, fun h => absurd h.2 hno⟩, fun _ => rfl⟩

/-- Witness for C7 (amended): `images_resizer -f 0.5` is processed with factor
`0.5` in the current directory. -/
theorem main_guard_witness :
    ImagesResizer.main (ascii "images_resizer" :: ascii "-f" :: ascii "0.5" :: [])
      ⟨ascii ".", factorHalf, true⟩ = Outcome.processed (ascii ".") factorHalf :=
  (main_guard (ascii "images_resizer" :: ascii "-f" :: ascii "0.5" :: [])
    ⟨ascii ".", factorHalf, true⟩ rfl (by decide)).1.2 ⟨by decide, by decide⟩

/-! ## C8: the worker pool -/

theorem sum_set_add {M : Type} [AddCommMonoid M] (g : Worker → M) :
    ∀ (ws : List Worker) (k : Nat) (old v : Worker) (d : M),
      ws[k]? = some old → g v = g old + d →
      ((ws.set k v).map g).sum = (ws.map g).sum + d := by
  intro ws
  induction ws with
  | nil => intro k old v d h; simp at h
  | cons x xs ih =>
    intro k old v d h hg
    cases k with
    | zero =>
      simp only [List.getElem?_cons_zero, Option.some.injEq] at h
      subst h
      simp only [List.set_cons_zero, List.map_cons, List.sum_cons, hg]
      abel
    | succ n =>
      simp only [List.getElem?_cons_succ] at h
      simp only [List.set_cons_succ, List.map_cons, List.sum_cons, ih n old v d h hg]
      abel

theorem sum_set_sub {M : Type} [AddCommMonoid M] (g : Worker → M) :
    ∀ (ws : List Worker) (k : Nat) (old v : Worker) (d : M),
      ws[k]? = some old → g old = g v + d →
      (ws.map g).sum = ((ws.set k v).map g).sum + d := by
  intro ws
  induction ws with
  | nil => intro k old v d h; simp at h
  | cons x xs ih =>
    intro k old v d h hg
    cases k with
    | zero =>
      simp only [List.getElem?_cons_zero, Option.some.injEq] at h
      subst h
      simp only [List.set_cons_zero, List.map_cons, List.sum_cons, hg]
      abel
    | succ n =>
      simp only [List.getElem?_cons_succ] at h
      simp only [List.set_cons_succ, List.map_cons, List.sum_cons, ih n old v d h hg]
      abel

theorem mem_of_getElem? {ws : List Worker} {k : Nat} {wk : Worker} (h : ws[k]? = some wk) :
    wk ∈ ws := by
  rw [List.getElem?_eq_some] at h
  obtain ⟨hk, rfl⟩ := h
  exact List.getElem_mem _

theorem init_inv (files : List GoString) : Pool.Inv files (Pool.init files) where
  workers_len := by simp [Pool.init]
  conserve := by simp [Pool.init, Pool.allReceived, workersNum, List.replicate]
  perWorker := by
    intro w hw
    simp only [Pool.init, List.mem_replicate] at hw
    rw [hw.2]
    rfl
  resultsAcc := by simp [Pool.init, Pool.allSent, workersNum, List.replicate]
  indices := by simp [Pool.init]
  printed_le := by simp [Pool.init]
  closed_toSend := by simp [Pool.init]
  exited_drained := by
    intro w hw
    simp only [Pool.init, List.mem_replicate] at hw
    rw [hw.2]
    simp
  returned_done := by simp [Pool.init]

theorem feed_inv (files : List GoString) (s s' : Pool) (h : Pool.Inv files s)
    (hs : s.step files.length ChanOp.feed = some s') : Pool.Inv files s' := by
  simp only [Pool.step] at hs
  cases hts : s.toSend with
  | nil => simp [hts] at hs
  | cons f rest =>
    simp only [hts] at hs
    split_ifs at hs with hcap
    simp only [Option.some.injEq] at hs
    subst hs
    have hnc : s.closed = false := by
      cases hc : s.closed with
      | false => rfl
      | true => have := h.closed_toSend hc; rw [hts] at this; simp at this
    exact
      { workers_len := h.workers_len
        conserve := by
          have := h.conserve
          rw [hts] at this
          rw [this]
          show (↑(f :: rest) : Multiset GoString) + ↑s.inputs + s.allReceived
            = ↑rest + ↑(s.inputs ++ [f]) + s.allReceived
          rw [← Multiset.cons_coe, ← Multiset.coe_add, ← Multiset.singleton_add,
            ← Multiset.coe_singleton]
          abel
        perWorker := h.perWorker
        resultsAcc := h.resultsAcc
        indices := h.indices
        printed_le := h.printed_le
        closed_toSend := fun hc => by
          have : s.closed = true := hc
          rw [hnc] at this
          exact Bool.noConfusion this
        exited_drained := fun w hw he => by
          have := (h.exited_drained w hw he).1
          rw [hnc] at this
          exact Bool.noConfusion this
        returned_done := fun hr => by
          have := (h.returned_done hr).1
          rw [hnc] at this
          exact Bool.noConfusion this }

theorem close_inv (files : List GoString) (s s' : Pool) (h : Pool.Inv files s)
    (hs : s.step files.length ChanOp.close = some s') : Pool.Inv files s' := by
  simp only [Pool.step] at hs
  split_ifs at hs with hc
  simp only [Option.some.injEq] at hs
  subst hs
  exact
    { workers_len := h.workers_len
      conserve := h.conserve
      perWorker := h.perWorker
      resultsAcc := h.resultsAcc
      indices := h.indices
      printed_le := h.printed_le
      closed_toSend := fun _ => hc.1
      exited_drained := fun w hw he => by
        have := (h.exited_drained w hw he).1
        rw [hc.2] at this
        exact Bool.noConfusion this
      returned_done := fun hr => by
        have := (h.returned_done hr).1
        rw [hc.2] at this
        exact Bool.noConfusion this }

theorem collect_inv (files : List GoString) (s s' : Pool) (h : Pool.Inv files s)
    (hs : s.step files.length ChanOp.collect = some s') : Pool.Inv files s' := by
  simp only [Pool.step] at hs
  cases hres : s.results with
  | nil => simp [hres] at hs
  | cons f rest =>
    simp only [hres] at hs
    split_ifs at hs with hc
    simp only [Option.some.injEq] at hs
    subst hs
    exact
      { workers_len := h.workers_len
        conserve := h.conserve
        perWorker := h.perWorker
        resultsAcc := by
          have := h.resultsAcc
          rw [hres] at this
          show s.allSent = ↑rest + ↑((s.printed ++ [(f, s.printed.length)]).map Prod.fst)
          rw [this, List.map_append, ← Multiset.cons_coe, ← Multiset.coe_add,
            ← Multiset.singleton_add]
          simp only [List.map_cons, List.map_nil, Multiset.coe_singleton]
          abel
        indices := by
          show (s.printed ++ [(f, s.printed.length)]).map Prod.snd
            = List.range (s.printed ++ [(f, s.printed.length)]).length
          rw [List.map_append, h.indices, List.length_append]
          simp [List.range_succ]
        printed_le := by
          show (s.printed ++ [(f, s.printed.length)]).length ≤ files.length
          rw [List.length_append]
          simpa using hc.2
        closed_toSend := h.closed_toSend
        exited_drained := h.exited_drained
        returned_done := fun hr => by
          have h1 := (h.returned_done hr).2
          have h2 := hc.2
          omega }

theorem ret_inv (files : List GoString) (s s' : Pool) (h : Pool.Inv files s)
    (hs : s.step files.length ChanOp.ret = some s') : Pool.Inv files s' := by
  simp only [Pool.step] at hs
  split_ifs at hs with hc
  simp only [Option.some.injEq] at hs
  subst hs
  exact
    { workers_len := h.workers_len
      conserve := h.conserve
      perWorker := h.perWorker
      resultsAcc := h.resultsAcc
      indices := h.indices
      printed_le := h.printed_le
      closed_toSend := h.closed_toSend
      exited_drained := h.exited_drained
      returned_done := fun _ => ⟨hc.1, hc.2.1⟩ }

theorem receive_inv (files : List GoString) (s s' : Pool) (w : Nat) (h : Pool.Inv files s)
    (hs : s.step files.length (ChanOp.receive w) = some s') : Pool.Inv files s' := by
  simp only [Pool.step] at hs
  cases hwk : s.workers[w]? with
  | none => simp [hwk] at hs
  | some wk =>
    cases hin : s.inputs with
    | nil => simp [hwk, hin] at hs
    | cons f rest =>
      simp only [hwk, hin] at hs
      split_ifs at hs with hc
      simp only [Option.some.injEq] at hs
      subst hs
      have hold := h.perWorker wk (mem_of_getElem? hwk)
      exact
        { workers_len := by
            show (s.workers.set w _).length = workersNum
            rw [List.length_set]
            exact h.workers_len
          conserve := by
            have h1 := h.conserve
            rw [hin] at h1
            have h2 : ((s.workers.set w
                { wk with received := wk.received ++ [f], current := some f }).map
                (fun w => (w.received : Multiset GoString))).sum
                = s.allReceived + {f} :=
              sum_set_add _ s.workers w wk _ {f} hwk (by
                show (↑(wk.received ++ [f]) : Multiset GoString) = ↑wk.received + {f}
                rw [← Multiset.coe_add, Multiset.coe_singleton])
            show (files : Multiset GoString) = ↑s.toSend + ↑rest + _
            rw [h1, ← Multiset.cons_coe, ← Multiset.singleton_add]
            unfold Pool.allReceived
            rw [h2]
            unfold Pool.allReceived
            abel
          perWorker := by
            intro w' hw'
            rcases List.mem_or_eq_of_mem_set hw' with hm | rfl
            · exact h.perWorker w' hm
            · show wk.received ++ [f] = wk.sent ++ (some f).toList
              rw [hold, hc.1]
              simp
          resultsAcc := by
            have h2 : ((s.workers.set w
                { wk with received := wk.received ++ [f], current := some f }).map
                (fun w => (w.sent : Multiset GoString))).sum = s.allSent + 0 :=
              sum_set_add _ s.workers w wk _ 0 hwk (by simp)
            unfold Pool.allSent
            rw [h2, add_zero]
            exact h.resultsAcc
          indices := h.indices
          printed_le := h.printed_le
          closed_toSend := h.closed_toSend
          exited_drained := by
            intro w' hw' he
            rcases List.mem_or_eq_of_mem_set hw' with hm | rfl
            · have := (h.exited_drained w' hm he).2.1
              rw [hin] at this
              exact absurd this (List.cons_ne_nil _ _)
            · have : wk.exited = true := he
              rw [hc.2] at this
              exact Bool.noConfusion this
          returned_done := h.returned_done }

theorem finish_inv (files : List GoString) (s s' : Pool) (w : Nat) (h : Pool.Inv files s)
    (hs : s.step files.length (ChanOp.finish w) = some s') : Pool.Inv files s' := by
  simp only [Pool.step] at hs
  cases hwk : s.workers[w]? with
  | none => simp [hwk] at hs
  | some wk =>
    cases hcur : wk.current with
    | none => simp [hwk, hcur] at hs
    | some f =>
      simp only [hwk, hcur] at hs
      split_ifs at hs with hc
      simp only [Option.some.injEq] at hs
      subst hs
      have hold := h.perWorker wk (mem_of_getElem? hwk)
      exact
        { workers_len := by
            show (s.workers.set w _).length = workersNum
            rw [List.length_set]
            exact h.workers_len
          conserve := by
            have h2 : ((s.workers.set w
                { wk with sent := wk.sent ++ [f], current := none }).map
                (fun w => (w.received : Multiset GoString))).sum = s.allReceived + 0 :=
              sum_set_add _ s.workers w wk _ 0 hwk (by simp)
            show (files : Multiset GoString) = ↑s.toSend + ↑s.inputs + _
            unfold Pool.allReceived
            rw [h2, add_zero]
            exact h.conserve
          perWorker := by
            intro w' hw'
            rcases List.mem_or_eq_of_mem_set hw' with hm | rfl
            · exact h.perWorker w' hm
            · show wk.received = (wk.sent ++ [f]) ++ (none : Option GoString).toList
              rw [hold, hcur]
              simp
          resultsAcc := by
            have h2 : ((s.workers.set w
                { wk with sent := wk.sent ++ [f], current := none }).map
                (fun w => (w.sent : Multiset GoString))).sum = s.allSent + {f} :=
              sum_set_add _ s.workers w wk _ {f} hwk (by
                show (↑(wk.sent ++ [f]) : Multiset GoString) = ↑wk.sent + {f}
                rw [← Multiset.coe_add, Multiset.coe_singleton])
            show _ = (↑(s.results ++ [f]) : Multiset GoString) + _
            unfold Pool.allSent
            rw [h2, ← Multiset.coe_add, Multiset.coe_singleton, h.resultsAcc]
            show _ = (↑s.results : Multiset GoString) + {f} + ↑(s.printed.map Prod.fst)
            abel
          indices := h.indices
          printed_le := h.printed_le
          closed_toSend := h.closed_toSend
          exited_drained := by
            intro w' hw' he
            rcases List.mem_or_eq_of_mem_set hw' with hm | rfl
            · exact h.exited_drained w' hm he
            · have hex : wk.exited = true := he
              have := (h.exited_drained wk (mem_of_getElem? hwk) hex).2.2
              rw [hcur] at this
              exact Option.noConfusion this
          returned_done := h.returned_done }

theorem leave_inv (files : List GoString) (s s' : Pool) (w : Nat) (h : Pool.Inv files s)
    (hs : s.step files.length (ChanOp.leave w) = some s') : Pool.Inv files s' := by
  simp only [Pool.step] at hs
  cases hwk : s.workers[w]? with
  | none => simp [hwk] at hs
  | some wk =>
    simp only [hwk] at hs
    split_ifs at hs with hc
    simp only [Option.some.injEq] at hs
    subst hs
    exact
      { workers_len := by
          show (s.workers.set w _).length = workersNum
          rw [List.length_set]
          exact h.workers_len
        conserve := by
          have h2 : ((s.workers.set w { wk with exited := true }).map
              (fun w => (w.received : Multiset GoString))).sum = s.allReceived + 0 :=
            sum_set_add _ s.workers w wk _ 0 hwk (by simp)
          show (files : Multiset GoString) = ↑s.toSend + ↑s.inputs + _
          unfold Pool.allReceived
          rw [h2, add_zero]
          exact h.conserve
        perWorker := by
          intro w' hw'
          rcases List.mem_or_eq_of_mem_set hw' with hm | rfl
          · exact h.perWorker w' hm
          · exact h.perWorker wk (mem_of_getElem? hwk)
        resultsAcc := by
          have h2 : ((s.workers.set w { wk with exited := true }).map
              (fun w => (w.sent : Multiset GoString))).sum = s.allSent + 0 :=
            sum_set_add _ s.workers w wk _ 0 hwk (by simp)
          unfold Pool.allSent
          rw [h2, add_zero]
          exact h.resultsAcc
        indices := h.indices
        printed_le := h.printed_le
        closed_toSend := h.closed_toSend
        exited_drained := by
          intro w' hw' he
          rcases List.mem_or_eq_of_mem_set hw' with hm | rfl
          · exact h.exited_drained w' hm he
          · exact ⟨hc.2.2.2, hc.2.2.1, hc.1⟩
        returned_done := h.returned_done }

theorem step_inv (files : List GoString) (s s' : Pool) (a : ChanOp) (h : Pool.Inv files s)
    (hs : s.step files.length a = some s') : Pool.Inv files s' := by
  cases a with
  | feed => exact feed_inv files s s' h hs
  | close => exact close_inv files s s' h hs
  | receive w => exact receive_inv files s s' w h hs
  | finish w => exact finish_inv files s s' w h hs
  | leave w => exact leave_inv files s s' w h hs
  | collect => exact collect_inv files s s' h hs
  | ret => exact ret_inv files s s' h hs

theorem exec_inv (files : List GoString) (sched : List ChanOp) :
    ∀ s s', Pool.Inv files s → Pool.exec files.length s sched = some s' → Pool.Inv files s' := by
  induction sched with
  | nil =>
    intro s s' h hs
    simp only [Pool.exec, Option.some.injEq] at hs
    subst hs
    exact h
  | cons a rest ih =>
    intro s s' h hs
    simp only [Pool.exec] at hs
    cases hst : s.step files.length a with
    | none => simp [hst] at hs
    | some s1 =>
      simp only [hst] at hs
      exact ih s1 s' (step_inv files s s1 a h hst) hs

theorem step_remaining (cap : Nat) (s s' : Pool) (a : ChanOp)
    (hs : s.step cap a = some s') : s.remaining = s'.remaining + 1 := by
  cases a with
  | feed =>
    simp only [Pool.step] at hs
    cases hts : s.toSend with
    | nil => simp [hts] at hs
    | cons f rest =>
      simp only [hts] at hs
      split_ifs at hs with hcap
      simp only [Option.some.injEq] at hs
      subst hs
      simp only [Pool.remaining, hts, List.length_cons, List.length_append, List.length_nil]
      omega
  | close =>
    simp only [Pool.step] at hs
    split_ifs at hs with hc
    simp only [Option.some.injEq] at hs
    subst hs
    simp only [Pool.remaining, hc.2]
    simp
    omega
  | receive w =>
    simp only [Pool.step] at hs
    cases hwk : s.workers[w]? with
    | none => simp [hwk] at hs
    | some wk =>
      cases hin : s.inputs with
      | nil => simp [hwk, hin] at hs
      | cons f rest =>
        simp only [hwk, hin] at hs
        split_ifs at hs with hc
        simp only [Option.some.injEq] at hs
        subst hs
        have h2 := sum_set_add (fun w : Worker => (if w.current.isSome then 2 else 0)
            + (if w.exited then 0 else 1)) s.workers w wk
          { wk with received := wk.received ++ [f], current := some f } 2 hwk
          (by simp [hc.1]; omega)
        simp only [Pool.remaining, hin, List.length_cons, h2]
        omega
  | finish w =>
    simp only [Pool.step] at hs
    cases hwk : s.workers[w]? with
    | none => simp [hwk] at hs
    | some wk =>
      cases hcur : wk.current with
      | none => simp [hwk, hcur] at hs
      | some f =>
        simp only [hwk, hcur] at hs
        split_ifs at hs with hc
        simp only [Option.some.injEq] at hs
        subst hs
        have h2 := sum_set_sub (fun w : Worker => (if w.current.isSome then 2 else 0)
            + (if w.exited then 0 else 1)) s.workers w wk
          { wk with sent := wk.sent ++ [f], current := none } 2 hwk
          (by simp [hcur]; omega)
        simp only [Pool.remaining, List.length_append, List.length_cons, List.length_nil, h2]
        omega
  | leave w =>
    simp only [Pool.step] at hs
    cases hwk : s.workers[w]? with
    | none => simp [hwk] at hs
    | some wk =>
      simp only [hwk] at hs
      split_ifs at hs with hc
      simp only [Option.some.injEq] at hs
      subst hs
      have h2 := sum_set_sub (fun w : Worker => (if w.current.isSome then 2 else 0)
          + (if w.exited then 0 else 1)) s.workers w wk
        { wk with exited := true } 1 hwk
        (by simp [hc.2.1])
      simp only [Pool.remaining, h2]
      omega
  | collect =>
    simp only [Pool.step] at hs
    cases hres : s.results with
    | nil => simp [hres] at hs
    | cons f rest =>
      simp only [hres] at hs
      split_ifs at hs with hc
      simp only [Option.some.injEq] at hs
      subst hs
      simp only [Pool.remaining, hres, List.length_cons]
      omega
  | ret =>
    simp only [Pool.step] at hs
    split_ifs at hs with hc
    simp only [Option.some.injEq] at hs
    subst hs
    simp only [Pool.remaining, hc.2.2]
    simp

theorem exec_remaining (cap : Nat) (sched : List ChanOp) :
    ∀ s s', Pool.exec cap s sched = some s' → sched.length + s'.remaining = s.remaining := by
  induction sched with
  | nil =>
    intro s s' hs
    simp only [Pool.exec, Option.some.injEq] at hs
    subst hs
    simp
  | cons a rest ih =>
    intro s s' hs
    simp only [Pool.exec] at hs
    cases hst : s.step cap a with
    | none => simp [hst] at hs
    | some s1 =>
      simp only [hst] at hs
      have h1 := ih s1 s' hs
      have h2 := step_remaining cap s s1 a hst
      rw [List.length_cons]
      omega

theorem init_remaining (files : List GoString) :
    (Pool.init files).remaining = 4 * files.length + 7 := by
  simp [Pool.remaining, Pool.init, workersNum, List.replicate]

theorem card_received (ws : List Worker)
    (h : ∀ w ∈ ws, w.received = w.sent ++ w.current.toList) :
    Multiset.card (ws.map (fun w => (w.received : Multiset GoString))).sum
      = Multiset.card (ws.map (fun w => (w.sent : Multiset GoString))).sum
        + (ws.map (fun w => w.current.toList.length)).sum := by
  induction ws with
  | nil => simp
  | cons x xs ih =>
    have hx := h x (List.mem_cons_self x xs)
    have hxs := ih (fun w hw => h w (List.mem_cons_of_mem x hw))
    simp only [List.map_cons, List.sum_cons, Multiset.card_add, Multiset.coe_card, hxs]
    rw [hx, List.length_append]
    omega

theorem current_count_pos (ws : List Worker) (w : Worker) (hw : w ∈ ws)
    (hc : w.current ≠ none) : 1 ≤ (ws.map (fun w => w.current.toList.length)).sum := by
  induction ws with
  | nil => simp at hw
  | cons x xs ih =>
    simp only [List.map_cons, List.sum_cons]
    rcases List.mem_cons.1 hw with rfl | hm
    · cases hcur : w.current with
      | none => exact absurd hcur hc
      | some f => simp
    · have := ih hm
      omega

theorem current_count_zero (ws : List Worker) (h : ∀ w ∈ ws, w.current = none) :
    (ws.map (fun w => w.current.toList.length)).sum = 0 := by
  induction ws with
  | nil => simp
  | cons x xs ih =>
    simp only [List.map_cons, List.sum_cons, h x (List.mem_cons_self x xs),
      ih (fun w hw => h w (List.mem_cons_of_mem x hw))]
    simp

theorem received_eq_sent (ws : List Worker)
    (h : ∀ w ∈ ws, w.received = w.sent ++ w.current.toList)
    (hc : ∀ w ∈ ws, w.current = none) :
    (ws.map (fun w => (w.received : Multiset GoString))).sum
      = (ws.map (fun w => (w.sent : Multiset GoString))).sum := by
  induction ws with
  | nil => simp
  | cons x xs ih =>
    have hx := h x (List.mem_cons_self x xs)
    rw [hc x (List.mem_cons_self x xs)] at hx
    simp only [List.map_cons, List.sum_cons,
      ih (fun w hw => h w (List.mem_cons_of_mem x hw)) (fun w hw => hc w (List.mem_cons_of_mem x hw))]
    rw [hx]
    simp

/-- The counts behind the invariant: every file name is still to be sent, in
the `inputs` buffer, being processed, in the `results` buffer, or printed. -/
theorem inv_count (files : List GoString) (s : Pool) (h : Pool.Inv files s) :
    files.length = s.toSend.length + s.inputs.length
      + (s.results.length + s.printed.length
        + (s.workers.map (fun w => w.current.toList.length)).sum) := by
  have h1 := congrArg Multiset.card h.conserve
  have h2 := congrArg Multiset.card h.resultsAcc
  have h3 := card_received s.workers h.perWorker
  simp only [Multiset.card_add, Multiset.coe_card, List.length_map] at h1 h2
  unfold Pool.allReceived at h1
  unfold Pool.allSent at h2
  omega

theorem inv_can_feed (files : List GoString) (s : Pool) (h : Pool.Inv files s)
    (hts : s.toSend ≠ []) : s.inputs.length < files.length := by
  have := inv_count files s h
  have : 0 < s.toSend.length := List.length_pos.2 hts
  omega

theorem inv_can_finish (files : List GoString) (s : Pool) (h : Pool.Inv files s)
    (w : Worker) (hw : w ∈ s.workers) (hc : w.current ≠ none) :
    s.results.length < files.length := by
  have := inv_count files s h
  have := current_count_pos s.workers w hw hc
  omega

theorem inv_progress (files : List GoString) (s : Pool) (h : Pool.Inv files s)
    (hr : s.returned = false) : ∃ a s', s.step files.length a = some s' := by
  cases hts : s.toSend with
  | cons f rest =>
    have hcap := inv_can_feed files s h (by rw [hts]; exact List.cons_ne_nil _ _)
    refine ⟨ChanOp.feed, ?_⟩
    simp only [Pool.step, hts, if_pos hcap]
    exact ⟨_, rfl⟩
  | nil =>
    cases hcl : s.closed with
    | false =>
      refine ⟨ChanOp.close, ?_⟩
      simp only [Pool.step, hts, hcl, and_self, if_true]
      exact ⟨_, rfl⟩
    | true =>
      rcases Nat.lt_or_ge s.printed.length files.length with hlt | hge
      · cases hres : s.results with
        | cons f rest =>
          refine ⟨ChanOp.collect, ?_⟩
          simp only [Pool.step, hres, hcl, hlt, and_self, if_true]
          exact ⟨_, rfl⟩
        | nil =>
          by_cases hex : ∃ w ∈ s.workers, w.current ≠ none
          · obtain ⟨wk, hwk, hcur⟩ := hex
            obtain ⟨k, hk⟩ := List.mem_iff_getElem?.1 hwk
            cases hc : wk.current with
            | none => exact absurd hc hcur
            | some f =>
              have hcap : s.results.length < files.length := by
                rw [hres]
                simp only [List.length_nil]
                omega
              refine ⟨ChanOp.finish k, ?_⟩
              simp only [Pool.step, hk, hc, if_pos hcap]
              exact ⟨_, rfl⟩
          · have hall : ∀ w ∈ s.workers, w.current = none := by
              intro w hw
              by_contra hc
              exact hex ⟨w, hw, hc⟩
            have hcnt := inv_count files s h
            rw [current_count_zero s.workers hall, hts, hres] at hcnt
            simp only [List.length_nil] at hcnt
            cases hin : s.inputs with
            | nil =>
              rw [hin] at hcnt
              simp only [List.length_nil] at hcnt
              omega
            | cons f rest =>
              have hlen := h.workers_len
              have h0 : 0 < s.workers.length := by rw [hlen]; decide
              have hget : s.workers[0]? = some (s.workers[0]) := List.getElem?_eq_getElem h0
              have hmem : s.workers[0] ∈ s.workers := List.getElem_mem _
              have hne : (s.workers[0]).exited = false := by
                cases he : (s.workers[0]).exited with
                | false => rfl
                | true =>
                  have := (h.exited_drained _ hmem he).2.1
                  rw [hin] at this
                  exact absurd this (List.cons_ne_nil _ _)
              refine ⟨ChanOp.receive 0, ?_⟩
              simp only [Pool.step, hget, hin, hall _ hmem, hne, and_self, if_true]
              exact ⟨_, rfl⟩
      · have hp := h.printed_le
        refine ⟨ChanOp.ret, ?_⟩
        simp only [Pool.step, hcl, hr, le_antisymm hp hge, and_self, if_true]
        exact ⟨_, rfl⟩

/-- C8: for every list of eligible file names and the pool of five workers, in
every interleaving of the channel operations (no job failing), in every state
reached:
* every file name is still to be sent, waits in the `inputs` buffer, or has been
  received by a worker, each occurrence once (a multiset equation);
* what a worker has received is what it has sent on `results`, in order,
  followed by the job it is processing: one result per job;
* what the workers have sent is what waits in `results` plus what was printed;
* the coordinator's next send and every worker's next send find room in the
  channel, so neither blocks on capacity;
* the printed indices are `0, 1, 2, ...` in order;
* once the coordinator has returned it has received exactly `N` results, printed
  with the indices `0..N-1`, the printed names are the file names, every file
  name was received by a worker and sent back exactly once, and nothing is left
  in a channel or in a worker;
* as long as the coordinator has not returned some operation can take place
  (no deadlock), and the schedule has at most `4 * N + 7` operations, so every
  execution ends with the coordinator returning. -/
theorem workers_pool (files : List GoString) (sched : List ChanOp) (s : Pool)
    (h : Pool.run files sched = some s) :
    (files : Multiset GoString)
      = (s.toSend : Multiset GoString) + (s.inputs : Multiset GoString) + s.allReceived ∧
    (∀ w ∈ s.workers, w.received = w.sent ++ w.current.toList) ∧
    s.allSent = (s.results : Multiset GoString)
      + ((s.printed.map Prod.fst : List GoString) : Multiset GoString) ∧
    s.workers.length = workersNum ∧
    (s.toSend ≠ [] → s.inputs.length < files.length) ∧
    (∀ w ∈ s.workers, w.current ≠ none → s.results.length < files.length) ∧
    s.printed.map Prod.snd = List.range s.printed.length ∧
    (s.returned = true →
      s.printed.length = files.length ∧
      s.printed.map Prod.snd = List.range files.length ∧
      ((s.printed.map Prod.fst : List GoString) : Multiset GoString) = (files : Multiset GoString) ∧
      s.allReceived = (files : Multiset GoString) ∧
      s.allSent = (files : Multiset GoString) ∧
      s.toSend = [] ∧ s.inputs = [] ∧ s.results = [] ∧
      ∀ w ∈ s.workers, w.current = none) ∧
    (s.returned = false → ∃ a s', s.step files.length a = some s') ∧
    sched.length + s.remaining = 4 * files.length + 7 := by
  have hinv : Pool.Inv files s := exec_inv files sched _ s (init_inv files) h
  have hrem := exec_remaining files.length sched _ s h
  rw [init_remaining] at hrem
  refine ⟨hinv.conserve, hinv.perWorker, hinv.resultsAcc, hinv.workers_len,
    inv_can_feed files s hinv, inv_can_finish files s hinv, hinv.indices, fun hr => ?_,
    inv_progress files s hinv, hrem⟩
  obtain ⟨_, hN⟩ := hinv.returned_done hr
  have hcnt := inv_count files s hinv
  have h1 : s.toSend = [] := List.length_eq_zero.1 (by omega)
  have h2 : s.inputs = [] := List.length_eq_zero.1 (by omega)
  have h3 : s.results = [] := List.length_eq_zero.1 (by omega)
  have h4 : ∀ w ∈ s.workers, w.current = none := by
    intro w hw
    by_contra hc
    have := current_count_pos s.workers w hw hc
    omega
  have hR : s.allReceived = (files : Multiset GoString) := by
    have := hinv.conserve
    rw [h1, h2] at this
    simpa using this.symm
  have hS : s.allSent = (files : Multiset GoString) := by
    rw [← hR]
    exact (received_eq_sent s.workers hinv.perWorker h4).symm
  have hP : ((s.printed.map Prod.fst : List GoString) : Multiset GoString) = files := by
    have := hinv.resultsAcc
    rw [h3, hS] at this
    simpa using this.symm
  exact ⟨hN, by rw [← hN]; exact hinv.indices, hP, hR, hS, h1, h2, h3, h4⟩

/-- Witness for C8: the two files `a.png` and `b.jpg`, worker 1 finishing before
worker 0; the coordinator returns after printing `b.jpg` with index 0 and `a.png`
with index 1. -/
theorem workers_pool_witness :
    Pool.run [ascii "a.png", ascii "b.jpg"] demoSchedule = some demoFinal ∧
    demoFinal.returned = true ∧
    demoFinal.printed.length = 2 ∧
    demoFinal.printed.map Prod.snd = List.range 2 ∧
    ((demoFinal.printed.map Prod.fst : List GoString) : Multiset GoString)
      = (([ascii "a.png", ascii "b.jpg"] : List GoString) : Multiset GoString) :=
  have h := (workers_pool [ascii "a.png", ascii "b.jpg"] demoSchedule demoFinal
    (by decide)).2.2.2.2.2.2.2.1 (by decide)
  ⟨by decide, by decide, h.1, h.2.1, h.2.2.1⟩
